import Mathlib

/-!
Verification of the duplicate-file-finder indexing and reconciliation engine.

The Python sources are shallowly embedded:
* Python strings are `List Char` (the type `Chars`);
* the sqlite `files` table is a `List FileRecord` in row order;
* `os.walk` output for a mount, together with the per-file
  `os.path.relpath`-derived key and the result of `os.path.getsize` /
  `os.path.getmtime`, is a `List WalkEntry` (a `none` stat models `OSError`);
* fallible database operations return `Except`/`Option`.
-/

abbrev Chars := List Char

def pstr (s : String) : Chars := s.data

/-- One row of the `files` table
(`file_key TEXT, full_path TEXT, mount_point TEXT, file_size INTEGER,
last_modified REAL, UNIQUE(file_key, full_path)` in `database.py`). -/
structure FileRecord where
  file_key : Chars
  full_path : Chars
  mount_point : Chars
  file_size : Nat
  last_modified : Int
deriving DecidableEq, Repr

abbrev Catalog := List FileRecord

/-- One file yielded by `os.walk` of a mount point: its absolute path, the
mount-relative key `os.path.join(os.path.relpath(root, mount), filename)`,
and the stat result (`some (size, mtime)`, or `none` when
`os.path.getsize`/`os.path.getmtime` raises `OSError`). -/
structure WalkEntry where
  full_path : Chars
  file_key : Chars
  stat : Option (Nat × Int)
deriving DecidableEq, Repr

/-- `scanner.remove_mount_point`: count the rows whose `mount_point` is the
given absolute path or its trailing-separator variant
(`os.path.join(abs_mount_point, '')`), delete them when the count is
positive, and return the count (`0` for an unknown mount) with the
resulting table. -/
def remove_mount_point (m : Chars) (cat : Catalog) : Nat × Catalog :=
  let msep := m ++ ['/']
  let count := (cat.filter (fun r => decide (r.mount_point = m ∨ r.mount_point = msep))).length
  if count > 0 then
    (count, cat.filter (fun r => decide (¬ (r.mount_point = m ∨ r.mount_point = msep))))
  else
    (0, cat)

/-- C4: `remove_mount_point` deletes exactly the rows whose `mount_point`
equals the given absolute path or its trailing-separator variant, keeps
every row of any other mount, and returns the number of rows removed
(zero for an unknown mount). -/
theorem C4_remove_mount_point_scoped (m : Chars) (cat : Catalog) :
    (remove_mount_point m cat).2 =
      cat.filter (fun r => decide (¬ (r.mount_point = m ∨ r.mount_point = m ++ ['/']))) ∧
    (remove_mount_point m cat).1 =
      (cat.filter (fun r => decide (r.mount_point = m ∨ r.mount_point = m ++ ['/']))).length := by
  unfold remove_mount_point
  by_cases h : (cat.filter (fun r => decide (r.mount_point = m ∨ r.mount_point = m ++ ['/']))).length > 0
  · rw [if_pos h]
    exact ⟨rfl, rfl⟩
  · rw [if_neg h]
    constructor
    · have hnil : cat.filter (fun r => decide (r.mount_point = m ∨ r.mount_point = m ++ ['/'])) = [] :=
        List.eq_nil_of_length_eq_zero (Nat.eq_zero_of_not_pos h)
      have hall : ∀ r ∈ cat, decide (¬ (r.mount_point = m ∨ r.mount_point = m ++ ['/'])) = true := by
        intro r hr
        by_contra hc
        have hor : r.mount_point = m ∨ r.mount_point = m ++ ['/'] := by
          by_contra hno
          exact hc (by simpa using hno)
        have hmem : r ∈ cat.filter (fun r => decide (r.mount_point = m ∨ r.mount_point = m ++ ['/'])) :=
          List.mem_filter.mpr ⟨hr, by simpa using hor⟩
        rw [hnil] at hmem
        exact absurd hmem (List.not_mem_nil r)
      exact (List.filter_eq_self.mpr hall).symm
    · omega

/-- One line of the plan emitted by `core.generate_delete_commands`: a
removal directive `rm '{path}'`, the annotation
`# Kept: '{path}' (Size: {size} bytes)`, or the blank spacer line. -/
inductive PlanLine where
  | rm (path : Chars)
  | kept (path : Chars) (size : Nat)
  | blank
deriving DecidableEq, Repr

/-- Python `max(paths_and_sizes, key=lambda x: x[1])`: `none` on the empty
list (where Python raises `ValueError`); otherwise a left fold that replaces
the current best only on a strictly larger size, so ties keep the earlier
element. -/
def maxBySize : List (Chars × Nat) → Option (Chars × Nat)
  | [] => none
  | x :: xs => some (xs.foldl (fun best y => if y.2 > best.2 then y else best) x)

/-- `core.generate_delete_commands`: for each exact-duplicate group pick
`max(paths_and_sizes, key=lambda x: x[1])` as the member to keep, emit one
`rm` line per member whose path differs from the kept path, then the
`# Kept:` annotation and a blank line.  `none` models the `ValueError`
Python raises on an empty group. -/
def generate_delete_commands : List (Chars × List (Chars × Nat)) → Option (List PlanLine)
  | [] => some []
  | (_, prs) :: rest =>
    match maxBySize prs with
    | none => none
    | some (kp, ks) =>
      match generate_delete_commands rest with
      | none => none
      | some cmds =>
        some (((prs.filter (fun pr => decide (¬ pr.1 = kp))).map (fun pr => PlanLine.rm pr.1) ++
          [PlanLine.kept kp ks, PlanLine.blank]) ++ cmds)

def isRmLine : PlanLine → Bool
  | PlanLine.rm _ => true
  | _ => false

def isKeptLine : PlanLine → Bool
  | PlanLine.kept _ _ => true
  | _ => false

theorem maxBySize_mem (xs : List (Chars × Nat)) :
    ∀ best : Chars × Nat,
      xs.foldl (fun best y => if y.2 > best.2 then y else best) best = best ∨
      xs.foldl (fun best y => if y.2 > best.2 then y else best) best ∈ xs := by
  induction xs with
  | nil => intro best; exact Or.inl rfl
  | cons y ys ih =>
    intro best
    simp only [List.foldl_cons]
    rcases ih (if y.2 > best.2 then y else best) with h | h
    · rw [h]
      by_cases hy : y.2 > best.2
      · rw [if_pos hy]; exact Or.inr (List.mem_cons_self y ys)
      · rw [if_neg hy]; exact Or.inl rfl
    · exact Or.inr (List.mem_cons_of_mem y h)

theorem maxBySize_ub (xs : List (Chars × Nat)) :
    ∀ best : Chars × Nat,
      best.2 ≤ (xs.foldl (fun best y => if y.2 > best.2 then y else best) best).2 ∧
      ∀ z ∈ xs, z.2 ≤ (xs.foldl (fun best y => if y.2 > best.2 then y else best) best).2 := by
  induction xs with
  | nil =>
    intro best
    exact ⟨Nat.le_refl _, by intro z hz; exact absurd hz (List.not_mem_nil z)⟩
  | cons y ys ih =>
    intro best
    simp only [List.foldl_cons]
    have hstep : best.2 ≤ (if y.2 > best.2 then y else best).2 ∧ y.2 ≤ (if y.2 > best.2 then y else best).2 := by
      by_cases hy : y.2 > best.2
      · rw [if_pos hy]; exact ⟨Nat.le_of_lt hy, Nat.le_refl _⟩
      · rw [if_neg hy]; exact ⟨Nat.le_refl _, Nat.le_of_not_lt hy⟩
    obtain ⟨h1, h2⟩ := ih (if y.2 > best.2 then y else best)
    refine ⟨Nat.le_trans hstep.1 h1, ?_⟩
    intro z hz
    rcases List.mem_cons.mp hz with rfl | hz'
    · exact Nat.le_trans hstep.2 h1
    · exact h2 z hz'

theorem foldMax_first (xs : List (Chars × Nat)) :
    ∀ best res : Chars × Nat,
      xs.foldl (fun best y => if y.2 > best.2 then y else best) best = res →
      (best :: xs).find? (fun pr => decide (pr.2 = res.2)) = some res := by
  induction xs with
  | nil =>
    intro best res hfold
    simp only [List.foldl_nil] at hfold
    subst hfold
    simp [List.find?_cons]
  | cons y ys ih =>
    intro best res hfold
    simp only [List.foldl_cons] at hfold
    by_cases hy : y.2 > best.2
    · rw [if_pos hy] at hfold
      have hub := (maxBySize_ub ys y).1
      rw [hfold] at hub
      have hbf : (decide (best.2 = res.2)) = false := by
        simp only [decide_eq_false_iff_not]
        omega
      have htail := ih y res hfold
      simp only [List.find?_cons, hbf] at htail ⊢
      exact htail
    · rw [if_neg hy] at hfold
      have hIH := ih best res hfold
      have hub := (maxBySize_ub ys best).1
      rw [hfold] at hub
      by_cases hb : best.2 = res.2
      · have hbt : (decide (best.2 = res.2)) = true := by simpa using hb
        simp only [List.find?_cons, hbt] at hIH ⊢
        exact hIH
      · have hbf : (decide (best.2 = res.2)) = false := by simpa using hb
        have hyf : (decide (y.2 = res.2)) = false := by
          simp only [decide_eq_false_iff_not]
          have : y.2 ≤ best.2 := Nat.le_of_not_lt hy
          omega
        simp only [List.find?_cons, hbf, hyf] at hIH ⊢
        exact hIH

theorem filter_ne_length_of_nodup (prs : List (Chars × Nat)) (kp : Chars) (ks : Nat)
    (hmem : (kp, ks) ∈ prs) (hnd : (prs.map Prod.fst).Nodup) :
    (prs.filter (fun pr => decide (¬ pr.1 = kp))).length = prs.length - 1 := by
  induction prs with
  | nil => exact absurd hmem (List.not_mem_nil _)
  | cons p ps ih =>
    have hnd' : (ps.map Prod.fst).Nodup := (List.nodup_cons.mp hnd).2
    have hnotin : p.1 ∉ ps.map Prod.fst := (List.nodup_cons.mp hnd).1
    rcases List.mem_cons.mp hmem with rfl | hmem'
    · have hall : ∀ pr ∈ ps, (decide (¬ pr.1 = (kp, ks).1)) = true := by
        intro pr hpr
        simp only [decide_eq_true_eq]
        intro hc
        have hm := List.mem_map_of_mem Prod.fst hpr
        rw [hc] at hm
        exact hnotin hm
      have hhead : (decide (¬ (kp, ks).1 = kp)) = false := by simp
      rw [List.filter_cons, hhead]
      simp only [Bool.false_eq_true, if_neg, not_false_eq_true]
      rw [List.filter_eq_self.mpr hall]
      simp
    · have hkp : ¬ p.1 = kp := by
        intro hc
        have hm := List.mem_map_of_mem Prod.fst hmem'
        rw [← hc] at hm
        exact hnotin hm
      have hps : 1 ≤ ps.length := List.length_pos.mpr (List.ne_nil_of_mem hmem')
      have hhead : (decide (¬ p.1 = kp)) = true := by simpa using hkp
      rw [List.filter_cons, hhead, if_pos rfl]
      have hihv := ih hmem' hnd'
      simp only [List.length_cons, hihv]
      omega

theorem generate_one_group (fk : Chars) (prs : List (Chars × Nat)) (kp : Chars) (ks : Nat)
    (h : maxBySize prs = some (kp, ks)) :
    generate_delete_commands [(fk, prs)] =
      some (((prs.filter (fun pr => decide (¬ pr.1 = kp))).map (fun pr => PlanLine.rm pr.1) ++
        [PlanLine.kept kp ks, PlanLine.blank]) ++ []) := by
  simp only [generate_delete_commands, h]

/-- C2: for every nonempty exact-duplicate group with pairwise-distinct
paths, the generated plan has exactly `N - 1` removal directives and exactly
one `# Kept:` annotation; the kept member's recorded size is the maximum of
the group, and the kept member is the first member of the group whose size
equals that maximum (ties retain the earliest member in input order). -/
theorem C2_delete_plan (fk : Chars) (prs : List (Chars × Nat))
    (hne : prs ≠ []) (hnd : (prs.map Prod.fst).Nodup) :
    ∃ kp ks cmds,
      maxBySize prs = some (kp, ks) ∧
      generate_delete_commands [(fk, prs)] = some cmds ∧
      (cmds.filter isRmLine).length = prs.length - 1 ∧
      (cmds.filter isKeptLine).length = 1 ∧
      (∀ pr ∈ prs, pr.2 ≤ ks) ∧
      prs.find? (fun pr => decide (pr.2 = ks)) = some (kp, ks) := by
  obtain ⟨x, xs, rfl⟩ := List.exists_cons_of_ne_nil hne
  obtain ⟨kp, ks, hres⟩ : ∃ kp ks,
      xs.foldl (fun best y => if y.2 > best.2 then y else best) x = (kp, ks) :=
    ⟨_, _, rfl⟩
  have hmax : maxBySize (x :: xs) = some (kp, ks) := by
    simp only [maxBySize, hres]
  have hmem : (kp, ks) ∈ x :: xs := by
    rcases maxBySize_mem xs x with h | h <;> rw [hres] at h
    · rw [h]
      exact List.mem_cons_self x xs
    · exact List.mem_cons_of_mem x h
  refine ⟨kp, ks, _, hmax, generate_one_group fk (x :: xs) kp ks hmax, ?_, ?_, ?_, ?_⟩
  · -- count of rm directives
    rw [List.append_nil, List.filter_append]
    have h1 : (((x :: xs).filter (fun pr => decide (¬ pr.1 = kp))).map
        (fun pr => PlanLine.rm pr.1)).filter isRmLine =
        ((x :: xs).filter (fun pr => decide (¬ pr.1 = kp))).map (fun pr => PlanLine.rm pr.1) := by
      apply List.filter_eq_self.mpr
      intro c hc
      obtain ⟨pr, _, rfl⟩ := List.mem_map.mp hc
      rfl
    have h2 : ([PlanLine.kept kp ks, PlanLine.blank].filter isRmLine) = [] := rfl
    rw [h1, h2, List.append_nil, List.length_map]
    exact filter_ne_length_of_nodup (x :: xs) kp ks hmem hnd
  · -- exactly one kept annotation
    rw [List.append_nil, List.filter_append]
    have h1 : (((x :: xs).filter (fun pr => decide (¬ pr.1 = kp))).map
        (fun pr => PlanLine.rm pr.1)).filter isKeptLine = [] := by
      apply List.filter_eq_nil_iff.mpr
      intro c hc
      obtain ⟨pr, _, rfl⟩ := List.mem_map.mp hc
      simp [isKeptLine]
    have h2 : ([PlanLine.kept kp ks, PlanLine.blank].filter isKeptLine) =
        [PlanLine.kept kp ks] := rfl
    rw [h1, h2]
    rfl
  · -- retained size is the maximum of the group
    intro pr hpr
    have hub := maxBySize_ub xs x
    rw [hres] at hub
    rcases List.mem_cons.mp hpr with rfl | hpr'
    · exact hub.1
    · exact hub.2 pr hpr'
  · exact foldMax_first xs x (kp, ks) hres

/-- Closed instance of `C2_delete_plan`: the group
`[(a, 2), (b, 5), (c, 5)]` keeps `b` (first of the tied maxima) and plans
two removals. -/
theorem C2_delete_plan_witness :
    ∃ kp ks cmds,
      maxBySize [(pstr "a", 2), (pstr "b", 5), (pstr "c", 5)] = some (kp, ks) ∧
      generate_delete_commands [(pstr "k", [(pstr "a", 2), (pstr "b", 5), (pstr "c", 5)])] = some cmds ∧
      (cmds.filter isRmLine).length = [(pstr "a", 2), (pstr "b", 5), (pstr "c", 5)].length - 1 ∧
      (cmds.filter isKeptLine).length = 1 ∧
      (∀ pr ∈ [(pstr "a", 2), (pstr "b", 5), (pstr "c", 5)], pr.2 ≤ ks) ∧
      [(pstr "a", 2), (pstr "b", 5), (pstr "c", 5)].find? (fun pr => decide (pr.2 = ks)) = some (kp, ks) :=
  C2_delete_plan (pstr "k") [(pstr "a", 2), (pstr "b", 5), (pstr "c", 5)] (by decide) (by decide)

/-- Python `str.split('; ')` specialised to the separator used by
`core.find_duplicates`/`core.analyze_duplicates`: scan left to right,
cutting at each non-overlapping occurrence of `"; "`.  `acc` holds the
characters of the current piece. -/
def splitSemi (acc : Chars) : Chars → List Chars
  | [] => [acc]
  | ';' :: ' ' :: rest => acc :: splitSemi [] rest
  | c :: rest => splitSemi (acc ++ [c]) rest

/-- The separator `'; '` of `GROUP_CONCAT(..., '; ')` and `.split('; ')`. -/
def semiSep : Chars := [';', ' ']

/-- sqlite's decimal rendering of an integer `file_size` inside
`GROUP_CONCAT(file_size, '; ')`. -/
def natToCharsFuel : Nat → Nat → Chars
  | 0, _ => []
  | fuel + 1, n =>
    if n < 10 then [Char.ofNat (48 + n)]
    else natToCharsFuel fuel (n / 10) ++ [Char.ofNat (48 + n % 10)]

def natToChars (n : Nat) : Chars := natToCharsFuel (n + 1) n

/-- Python `int(...)` as used on the pieces of `sizes_str.split('; ')`
(those pieces are always sqlite-rendered decimal numerals). -/
def parseNatChars (s : Chars) : Nat :=
  s.foldl (fun n c => n * 10 + (c.toNat - 48)) 0

/-- Lines 23-28 of `core.py`: `paths_str.split('; ')`,
`[int(s) for s in sizes_str.split('; ')]`, and `zip(paths, sizes)`. -/
def decodePairs (paths_str sizes_str : Chars) : List (Chars × Nat) :=
  (splitSemi [] paths_str).zip ((splitSemi [] sizes_str).map parseNatChars)

/-- `hashes[file_hash].append((path, size))` on a `defaultdict(list)`:
append to the existing digest's bucket, or add a new digest key at the end
(Python dicts preserve key insertion order). -/
def addToBucket (h : Chars) (pr : Chars × Nat) :
    List (Chars × List (Chars × Nat)) → List (Chars × List (Chars × Nat))
  | [] => [(h, [pr])]
  | (h', b) :: rest =>
    if h' = h then (h', b ++ [pr]) :: rest else (h', b) :: addToBucket h pr rest

/-- The hash-grouping loop of `core.analyze_duplicates`: digest each
`(path, size)` pair, silently dropping pairs whose digestion fails
(`get_file_hash` returned `None`). -/
def groupHashes (digest : Chars → Option Chars) :
    List (Chars × Nat) → List (Chars × List (Chars × Nat)) → List (Chars × List (Chars × Nat))
  | [], acc => acc
  | pr :: rest, acc =>
    match digest pr.1 with
    | none => groupHashes digest rest acc
    | some h => groupHashes digest rest (addToBucket h pr acc)

/-- `core.analyze_duplicates`: decode each duplicate group, bucket the
surviving paths by digest, and classify the group as an exact duplicate
(one bucket), a path duplicate (two or more buckets), or nothing (no
bucket). -/
def analyze_duplicates (digest : Chars → Option Chars)
    (duplicates : List (Chars × Chars × Chars × Nat)) :
    List (Chars × List (Chars × Nat)) × List (Chars × List (Chars × List (Chars × Nat))) :=
  duplicates.foldl (fun acc dup =>
    match groupHashes digest (decodePairs dup.2.1 dup.2.2.1) [] with
    | [] => acc
    | [b] => (acc.1 ++ [(dup.1, b.2)], acc.2)
    | b1 :: b2 :: bs => (acc.1, acc.2 ++ [(dup.1, b1 :: b2 :: bs)])) ([], [])

/-- The pairs of a group whose digest computation succeeded. -/
def surviving (digest : Chars → Option Chars) (pairs : List (Chars × Nat)) :
    List (Chars × Nat) :=
  pairs.filter (fun pr => (digest pr.1).isSome)

def insertDistinct (l : List Chars) (h : Chars) : List Chars :=
  if h ∈ l then l else l ++ [h]

/-- The distinct digest values of a group's surviving pairs, in first-seen
order. -/
def distinctDigests (digest : Chars → Option Chars) (pairs : List (Chars × Nat)) :
    List Chars :=
  pairs.foldl (fun acc pr =>
    match digest pr.1 with
    | none => acc
    | some h => insertDistinct acc h) []

/-- Specification-side view of the digest partition: one bucket per
distinct digest, holding the surviving pairs with that digest, in input
order. -/
def bucketsSpec (digest : Chars → Option Chars) (pairs : List (Chars × Nat)) :
    List (Chars × List (Chars × Nat)) :=
  (distinctDigests digest pairs).map
    (fun h => (h, pairs.filter (fun pr => decide (digest pr.1 = some h))))

theorem insertDistinct_nodup (l : List Chars) (h : Chars) (hl : l.Nodup) :
    (insertDistinct l h).Nodup := by
  unfold insertDistinct
  by_cases hm : h ∈ l
  · rw [if_pos hm]; exact hl
  · rw [if_neg hm]
    exact List.Nodup.append hl (List.nodup_singleton h) (by simpa using hm)

theorem mem_insertDistinct_self (l : List Chars) (h : Chars) : h ∈ insertDistinct l h := by
  unfold insertDistinct
  by_cases hm : h ∈ l
  · rw [if_pos hm]; exact hm
  · rw [if_neg hm]; exact List.mem_append_right l (List.mem_singleton.mpr rfl)

theorem mem_insertDistinct_of_mem (l : List Chars) (h h' : Chars) (hm : h' ∈ l) :
    h' ∈ insertDistinct l h := by
  unfold insertDistinct
  by_cases hh : h ∈ l
  · rw [if_pos hh]; exact hm
  · rw [if_neg hh]; exact List.mem_append_left _ hm

theorem distinctDigests_fold_nodup (digest : Chars → Option Chars) (pairs : List (Chars × Nat)) :
    ∀ acc : List Chars, acc.Nodup →
      (pairs.foldl (fun acc pr =>
        match digest pr.1 with
        | none => acc
        | some h => insertDistinct acc h) acc).Nodup := by
  induction pairs with
  | nil => intro acc hacc; exact hacc
  | cons pr rest ih =>
    intro acc hacc
    simp only [List.foldl_cons]
    cases hd : digest pr.1 with
    | none => exact ih acc hacc
    | some h => exact ih _ (insertDistinct_nodup acc h hacc)

theorem distinctDigests_nodup (digest : Chars → Option Chars) (pairs : List (Chars × Nat)) :
    (distinctDigests digest pairs).Nodup :=
  distinctDigests_fold_nodup digest pairs [] List.nodup_nil

theorem distinctDigests_fold_mem (digest : Chars → Option Chars) (pairs : List (Chars × Nat)) :
    ∀ acc : List Chars, ∀ h : Chars,
      ((∃ q ∈ pairs, digest q.1 = some h) ∨ h ∈ acc) →
      h ∈ pairs.foldl (fun acc pr =>
        match digest pr.1 with
        | none => acc
        | some h => insertDistinct acc h) acc := by
  induction pairs with
  | nil =>
    intro acc h hh
    rcases hh with ⟨q, hq, _⟩ | hh
    · exact absurd hq (List.not_mem_nil q)
    · exact hh
  | cons pr rest ih =>
    intro acc h hh
    simp only [List.foldl_cons]
    cases hd : digest pr.1 with
    | none =>
      apply ih
      rcases hh with ⟨q, hq, hqd⟩ | hh
      · rcases List.mem_cons.mp hq with rfl | hq'
        · rw [hd] at hqd; exact absurd hqd (by simp)
        · exact Or.inl ⟨q, hq', hqd⟩
      · exact Or.inr hh
    | some hv =>
      apply ih
      rcases hh with ⟨q, hq, hqd⟩ | hh
      · rcases List.mem_cons.mp hq with rfl | hq'
        · rw [hd] at hqd
          have : hv = h := by injection hqd
          subst this
          exact Or.inr (mem_insertDistinct_self acc hv)
        · exact Or.inl ⟨q, hq', hqd⟩
      · exact Or.inr (mem_insertDistinct_of_mem acc hv h hh)

theorem mem_distinctDigests (digest : Chars → Option Chars) (pairs : List (Chars × Nat))
    (q : Chars × Nat) (h : Chars) (hq : q ∈ pairs) (hd : digest q.1 = some h) :
    h ∈ distinctDigests digest pairs :=
  distinctDigests_fold_mem digest pairs [] h (Or.inl ⟨q, hq, hd⟩)

theorem distinctDigests_append_one (digest : Chars → Option Chars)
    (done : List (Chars × Nat)) (pr : Chars × Nat) :
    distinctDigests digest (done ++ [pr]) =
      match digest pr.1 with
      | none => distinctDigests digest done
      | some h => insertDistinct (distinctDigests digest done) h := by
  unfold distinctDigests
  rw [List.foldl_append]
  rfl

theorem addToBucket_map (digest : Chars → Option Chars) (pr : Chars × Nat) (h : Chars)
    (hdig : digest pr.1 = some h) :
    ∀ (D : List Chars) (done : List (Chars × Nat)), D.Nodup →
      (h ∈ D ∨ done.filter (fun q => decide (digest q.1 = some h)) = []) →
      addToBucket h pr
          (D.map (fun h' => (h', done.filter (fun q => decide (digest q.1 = some h'))))) =
        (insertDistinct D h).map
          (fun h' => (h', (done ++ [pr]).filter (fun q => decide (digest q.1 = some h')))) := by
  have hfilter_self : [pr].filter (fun q => decide (digest q.1 = some h)) = [pr] := by
    simp [hdig]
  have hfilter_ne : ∀ h' : Chars, ¬ h' = h →
      [pr].filter (fun q => decide (digest q.1 = some h')) = [] := by
    intro h' hne
    have : ¬ h = h' := fun hc => hne hc.symm
    simp [hdig, this]
  intro D
  induction D with
  | nil =>
    intro done _ hcov
    have hemp : done.filter (fun q => decide (digest q.1 = some h)) = [] := by
      rcases hcov with hc | hc
      · exact absurd hc (List.not_mem_nil h)
      · exact hc
    have hins : insertDistinct ([] : List Chars) h = [h] := by
      unfold insertDistinct
      rw [if_neg (List.not_mem_nil h)]
      rfl
    rw [hins]
    simp only [List.map_nil, List.map_cons, List.map_nil, addToBucket]
    rw [List.filter_append, hemp, hfilter_self]
    rfl
  | cons d D' ih =>
    intro done hnd hcov
    have hndD' : D'.Nodup := (List.nodup_cons.mp hnd).2
    have hdnot : d ∉ D' := (List.nodup_cons.mp hnd).1
    by_cases hdh : d = h
    · subst hdh
      have hins : insertDistinct (d :: D') d = d :: D' :=
        if_pos (List.mem_cons_self d D')
      rw [hins]
      simp only [List.map_cons, addToBucket, eq_self_iff_true, if_true]
      congr 1
      · rw [List.filter_append, hfilter_self]
      · apply List.map_congr_left
        intro h' hh'
        have hne : ¬ (h' = d) := fun hc => hdnot (hc ▸ hh')
        rw [List.filter_append, hfilter_ne h' hne, List.append_nil]
    · have hins : insertDistinct (d :: D') h = d :: insertDistinct D' h := by
        unfold insertDistinct
        by_cases hmem : h ∈ D'
        · rw [if_pos (List.mem_cons_of_mem d hmem), if_pos hmem]
        · have hno : h ∉ d :: D' := by
            intro hc
            rcases List.mem_cons.mp hc with hc' | hc'
            · exact hdh hc'.symm
            · exact hmem hc'
          rw [if_neg hno, if_neg hmem, List.cons_append]
      rw [hins]
      simp only [List.map_cons, addToBucket, if_neg hdh]
      congr 1
      · rw [List.filter_append, hfilter_ne d hdh, List.append_nil]
      · apply ih done hndD'
        rcases hcov with hc | hc
        · rcases List.mem_cons.mp hc with hc' | hc'
          · exact absurd hc'.symm hdh
          · exact Or.inl hc'
        · exact Or.inr hc

theorem bucketsSpec_append_none (digest : Chars → Option Chars)
    (done : List (Chars × Nat)) (pr : Chars × Nat) (hd : digest pr.1 = none) :
    bucketsSpec digest (done ++ [pr]) = bucketsSpec digest done := by
  unfold bucketsSpec
  rw [distinctDigests_append_one, hd]
  apply List.map_congr_left
  intro h' _
  rw [List.filter_append]
  have : [pr].filter (fun q => decide (digest q.1 = some h')) = [] := by
    simp [hd]
  rw [this, List.append_nil]

theorem bucketsSpec_append_some (digest : Chars → Option Chars)
    (done : List (Chars × Nat)) (pr : Chars × Nat) (h : Chars) (hd : digest pr.1 = some h) :
    addToBucket h pr (bucketsSpec digest done) = bucketsSpec digest (done ++ [pr]) := by
  unfold bucketsSpec
  rw [distinctDigests_append_one, hd]
  apply addToBucket_map digest pr h hd (distinctDigests digest done) done
    (distinctDigests_nodup digest done)
  by_cases hemp : done.filter (fun q => decide (digest q.1 = some h)) = []
  · exact Or.inr hemp
  · left
    obtain ⟨q, hq⟩ := List.exists_mem_of_ne_nil _ hemp
    have hq' := List.mem_filter.mp hq
    exact mem_distinctDigests digest done q h hq'.1 (by simpa using hq'.2)

theorem groupHashes_spec (digest : Chars → Option Chars) :
    ∀ (ps done : List (Chars × Nat)),
      groupHashes digest ps (bucketsSpec digest done) = bucketsSpec digest (done ++ ps) := by
  intro ps
  induction ps with
  | nil => intro done; rw [List.append_nil]; rfl
  | cons pr rest ih =>
    intro done
    simp only [groupHashes]
    cases hd : digest pr.1 with
    | none =>
      show groupHashes digest rest (bucketsSpec digest done) = bucketsSpec digest (done ++ pr :: rest)
      rw [← bucketsSpec_append_none digest done pr hd]
      rw [ih (done ++ [pr])]
      rw [List.append_assoc, List.singleton_append]
    | some h =>
      show groupHashes digest rest (addToBucket h pr (bucketsSpec digest done)) =
        bucketsSpec digest (done ++ pr :: rest)
      rw [bucketsSpec_append_some digest done pr h hd]
      rw [ih (done ++ [pr])]
      rw [List.append_assoc, List.singleton_append]

theorem groupHashes_eq_bucketsSpec (digest : Chars → Option Chars)
    (pairs : List (Chars × Nat)) :
    groupHashes digest pairs [] = bucketsSpec digest pairs := by
  have := groupHashes_spec digest pairs []
  simpa using this

theorem filter_digest_eq_surviving (digest : Chars → Option Chars)
    (pairs : List (Chars × Nat)) (h : Chars)
    (hone : distinctDigests digest pairs = [h]) :
    pairs.filter (fun pr => decide (digest pr.1 = some h)) = surviving digest pairs := by
  unfold surviving
  apply List.filter_congr
  intro pr hpr
  cases hd : digest pr.1 with
  | none => simp
  | some h' =>
    have : h' ∈ distinctDigests digest pairs := mem_distinctDigests digest pairs pr h' hpr hd
    rw [hone] at this
    have : h' = h := List.mem_singleton.mp this
    subst this
    simp

/-- Specification-side classification of one duplicate group as an
exact-duplicate emission: exactly one distinct digest among the surviving
pairs (which is also at least one surviving pair). -/
def exactSpec (digest : Chars → Option Chars) (dup : Chars × Chars × Chars × Nat) :
    Option (Chars × List (Chars × Nat)) :=
  if (distinctDigests digest (decodePairs dup.2.1 dup.2.2.1)).length = 1 then
    some (dup.1, surviving digest (decodePairs dup.2.1 dup.2.2.1))
  else none

/-- Specification-side classification of one duplicate group as a
path-duplicate emission: two or more distinct digests among the surviving
pairs, with the digest partition as value. -/
def pathSpec (digest : Chars → Option Chars) (dup : Chars × Chars × Chars × Nat) :
    Option (Chars × List (Chars × List (Chars × Nat))) :=
  if 2 ≤ (distinctDigests digest (decodePairs dup.2.1 dup.2.2.1)).length then
    some (dup.1, bucketsSpec digest (decodePairs dup.2.1 dup.2.2.1))
  else none

theorem analyze_fold (digest : Chars → Option Chars) :
    ∀ (dups : List (Chars × Chars × Chars × Nat))
      (ex : List (Chars × List (Chars × Nat)))
      (pd : List (Chars × List (Chars × List (Chars × Nat)))),
      dups.foldl (fun acc dup =>
        match groupHashes digest (decodePairs dup.2.1 dup.2.2.1) [] with
        | [] => acc
        | [b] => (acc.1 ++ [(dup.1, b.2)], acc.2)
        | b1 :: b2 :: bs => (acc.1, acc.2 ++ [(dup.1, b1 :: b2 :: bs)])) (ex, pd) =
      (ex ++ dups.filterMap (exactSpec digest), pd ++ dups.filterMap (pathSpec digest)) := by
  intro dups
  induction dups with
  | nil =>
    intro ex pd
    simp
  | cons dup rest ih =>
    intro ex pd
    simp only [List.foldl_cons]
    rw [groupHashes_eq_bucketsSpec]
    rcases hD : distinctDigests digest (decodePairs dup.2.1 dup.2.2.1) with _ | ⟨h1, _ | ⟨h2, hs⟩⟩
    · have hB : bucketsSpec digest (decodePairs dup.2.1 dup.2.2.1) = [] := by
        unfold bucketsSpec
        rw [hD]
        rfl
      rw [hB]
      have hex : exactSpec digest dup = none := by
        unfold exactSpec
        rw [hD]
        rfl
      have hpd : pathSpec digest dup = none := by
        unfold pathSpec
        rw [hD]
        rfl
      rw [List.filterMap_cons_none hex, List.filterMap_cons_none hpd]
      exact ih ex pd
    · have hB : bucketsSpec digest (decodePairs dup.2.1 dup.2.2.1) =
          [(h1, (decodePairs dup.2.1 dup.2.2.1).filter
            (fun pr => decide (digest pr.1 = some h1)))] := by
        unfold bucketsSpec
        rw [hD]
        rfl
      rw [hB]
      have hsur := filter_digest_eq_surviving digest (decodePairs dup.2.1 dup.2.2.1) h1 hD
      have hex : exactSpec digest dup =
          some (dup.1, surviving digest (decodePairs dup.2.1 dup.2.2.1)) := by
        unfold exactSpec
        rw [hD]
        rfl
      have hpd : pathSpec digest dup = none := by
        unfold pathSpec
        rw [hD]
        rfl
      rw [List.filterMap_cons_some hex, List.filterMap_cons_none hpd]
      show List.foldl _ (ex ++ [(dup.1, (decodePairs dup.2.1 dup.2.2.1).filter
          (fun pr => decide (digest pr.1 = some h1)))], pd) rest = _
      rw [hsur, ih]
      rw [List.append_assoc, List.singleton_append]
    · have hB : bucketsSpec digest (decodePairs dup.2.1 dup.2.2.1) =
          (h1, (decodePairs dup.2.1 dup.2.2.1).filter
            (fun pr => decide (digest pr.1 = some h1))) ::
          (h2, (decodePairs dup.2.1 dup.2.2.1).filter
            (fun pr => decide (digest pr.1 = some h2))) ::
          hs.map (fun h => (h, (decodePairs dup.2.1 dup.2.2.1).filter
            (fun pr => decide (digest pr.1 = some h)))) := by
        unfold bucketsSpec
        rw [hD]
        rfl
      rw [hB]
      have hex : exactSpec digest dup = none := by
        unfold exactSpec
        rw [hD]
        simp
      have hpd : pathSpec digest dup =
          some (dup.1, bucketsSpec digest (decodePairs dup.2.1 dup.2.2.1)) := by
        unfold pathSpec
        rw [hD]
        simp
      rw [List.filterMap_cons_none hex, List.filterMap_cons_some hpd]
      show List.foldl _ (ex, pd ++ [(dup.1, (h1, (decodePairs dup.2.1 dup.2.2.1).filter
          (fun pr => decide (digest pr.1 = some h1))) ::
          (h2, (decodePairs dup.2.1 dup.2.2.1).filter
            (fun pr => decide (digest pr.1 = some h2))) ::
          hs.map (fun h => (h, (decodePairs dup.2.1 dup.2.2.1).filter
            (fun pr => decide (digest pr.1 = some h)))))]) rest = _
      rw [← hB, ih]
      rw [List.append_assoc, List.singleton_append]

/-- C1: `analyze_duplicates` emits, per input group, an exact-duplicate
entry `(file_key, surviving pairs)` exactly when the surviving pairs have
exactly one distinct digest (hence at least one pair survived), a
path-duplicate entry `(file_key, digest partition)` exactly when they have
two or more distinct digests, and nothing when every digestion failed. -/
theorem C1_analyze_duplicates (digest : Chars → Option Chars)
    (dups : List (Chars × Chars × Chars × Nat)) :
    analyze_duplicates digest dups =
      (dups.filterMap (exactSpec digest), dups.filterMap (pathSpec digest)) := by
  unfold analyze_duplicates
  have := analyze_fold digest dups [] []
  simpa using this

/-- State of the `scan_mount_point` loop: the `resumed` flag, the
`files_info` accumulator, the trace of `save_checkpoint` writes (in order),
and the `pbar` progress count. -/
structure ScanState where
  resumed : Bool
  records : List FileRecord
  writes : List (Chars × Chars)
  progress : Nat
deriving DecidableEq, Repr

/-- Python truthiness of `resume_from` in `if resume_from and not resumed:`
(`None` and the empty string are both falsy). -/
def resumeActive : Option Chars → Bool
  | none => false
  | some [] => false
  | some (_ :: _) => true

/-- The per-file loop of `scanner.scan_mount_point`: while a truthy
`resume_from` has not been matched, skip the file (advancing only the
progress bar), flipping `resumed` on the matching path; afterwards emit a
record and a checkpoint write for every stat-able file and log-and-skip the
rest. -/
def scanLoop (m : Chars) (resumeFrom : Option Chars) : List WalkEntry → ScanState → ScanState
  | [], st => st
  | e :: rest, st =>
    if resumeActive resumeFrom && !st.resumed then
      scanLoop m resumeFrom rest
        { st with
          resumed := if resumeFrom = some e.full_path then true else st.resumed,
          progress := st.progress + 1 }
    else
      match e.stat with
      | none => scanLoop m resumeFrom rest { st with progress := st.progress + 1 }
      | some (sz, mt) =>
        scanLoop m resumeFrom rest
          { st with
            records := st.records ++ [⟨e.file_key, e.full_path, m, sz, mt⟩],
            writes := st.writes ++ [(m, e.full_path)],
            progress := st.progress + 1 }

/-- `resume_from = checkpoint['last_file'] if checkpoint and
checkpoint['mount_point'] == mount_point else None`. -/
def checkpointResume (checkpoint : Option (Chars × Chars)) (m : Chars) : Option Chars :=
  match checkpoint with
  | some (cm, lf) => if cm = m then some lf else none
  | none => none

/-- The result of `scanner.scan_mount_point`: the returned `files_info`
list, the checkpoint writes it performed, the total progress-bar count, and
the content of `checkpoint.json` after the scan (the scan never deletes the
file, so it is the last write if any, else the prior content). -/
structure ScanResult where
  records : List FileRecord
  writes : List (Chars × Chars)
  progress : Nat
  checkpointAfter : Option (Chars × Chars)
deriving DecidableEq, Repr

/-- `scanner.scan_mount_point` over the walk of `mount_point`, starting
from the given content of `checkpoint.json`. -/
def scan_mount_point (checkpoint : Option (Chars × Chars)) (m : Chars)
    (walk : List WalkEntry) : ScanResult :=
  let st := scanLoop m (checkpointResume checkpoint m) walk ⟨false, [], [], 0⟩
  { records := st.records
    writes := st.writes
    progress := st.progress
    checkpointAfter :=
      match st.writes.getLast? with
      | some w => some w
      | none => checkpoint }

/-- Walk entries strictly after the first entry whose path is `p`; empty
when `p` never occurs. -/
def dropThroughPath (p : Chars) : List WalkEntry → List WalkEntry
  | [] => []
  | e :: rest => if e.full_path = p then rest else dropThroughPath p rest

/-- The portion of the walk a scan actually processes given the resume
path. -/
def effectiveWalk (resumeFrom : Option Chars) (walk : List WalkEntry) : List WalkEntry :=
  match resumeFrom with
  | none => walk
  | some [] => walk
  | some (c :: cs) => dropThroughPath (c :: cs) walk

/-- The records a scan of mount `m` emits for a processed walk segment:
one per successfully stat-ed entry, in walk order. -/
def emittedRecords (m : Chars) (entries : List WalkEntry) : List FileRecord :=
  entries.filterMap (fun e => e.stat.map (fun st => ⟨e.file_key, e.full_path, m, st.1, st.2⟩))

theorem scanLoop_processed (m : Chars) (rf : Option Chars) (w : List WalkEntry) :
    ∀ st : ScanState, (resumeActive rf && !st.resumed) = false →
      scanLoop m rf w st =
        { resumed := st.resumed
          records := st.records ++ emittedRecords m w
          writes := st.writes ++ (emittedRecords m w).map (fun r => (m, r.full_path))
          progress := st.progress + w.length } := by
  induction w with
  | nil =>
    intro st h
    simp [scanLoop, emittedRecords]
  | cons e rest ih =>
    intro st h
    rw [scanLoop, if_neg (by rw [h]; exact Bool.false_ne_true)]
    cases hstat : e.stat with
    | none =>
      have hih := ih { st with progress := st.progress + 1 } (by simpa using h)
      have hE : emittedRecords m (e :: rest) = emittedRecords m rest := by
        simp [emittedRecords, List.filterMap_cons, hstat]
      show scanLoop m rf rest { st with progress := st.progress + 1 } =
        { resumed := st.resumed
          records := st.records ++ emittedRecords m (e :: rest)
          writes := st.writes ++ (emittedRecords m (e :: rest)).map (fun r => (m, r.full_path))
          progress := st.progress + (e :: rest).length }
      rw [hih, hE]
      congr 1
      all_goals solve
        | rfl
        | (simp only [List.length_cons]; omega)
    | some p =>
      obtain ⟨sz, mt⟩ := p
      have hih := ih { st with
        records := st.records ++ [⟨e.file_key, e.full_path, m, sz, mt⟩],
        writes := st.writes ++ [(m, e.full_path)],
        progress := st.progress + 1 } (by simpa using h)
      have hE : emittedRecords m (e :: rest) =
          (⟨e.file_key, e.full_path, m, sz, mt⟩ : FileRecord) :: emittedRecords m rest := by
        simp [emittedRecords, List.filterMap_cons, hstat]
      show scanLoop m rf rest { st with
          records := st.records ++ [⟨e.file_key, e.full_path, m, sz, mt⟩],
          writes := st.writes ++ [(m, e.full_path)],
          progress := st.progress + 1 } =
        { resumed := st.resumed
          records := st.records ++ emittedRecords m (e :: rest)
          writes := st.writes ++ (emittedRecords m (e :: rest)).map (fun r => (m, r.full_path))
          progress := st.progress + (e :: rest).length }
      rw [hih, hE]
      congr 1
      all_goals solve
        | rfl
        | (rw [List.append_assoc, List.singleton_append])
        | simp
        | (simp only [List.length_cons]; omega)

theorem scanLoop_resume (m p : Chars) (hp : p ≠ []) :
    ∀ (w : List WalkEntry) (st : ScanState), st.resumed = false →
      (scanLoop m (some p) w st).records =
          st.records ++ emittedRecords m (dropThroughPath p w) ∧
      (scanLoop m (some p) w st).writes =
          st.writes ++ (emittedRecords m (dropThroughPath p w)).map (fun r => (m, r.full_path)) ∧
      (scanLoop m (some p) w st).progress = st.progress + w.length := by
  have hra : resumeActive (some p) = true := by
    cases p with
    | nil => exact absurd rfl hp
    | cons c cs => rfl
  intro w
  induction w with
  | nil =>
    intro st h
    simp [scanLoop, dropThroughPath, emittedRecords]
  | cons e rest ih =>
    intro st h
    rw [scanLoop, if_pos (by rw [hra, h]; rfl)]
    by_cases hpe : e.full_path = p
    · have hdrop : dropThroughPath p (e :: rest) = rest := by
        rw [dropThroughPath, if_pos hpe]
      rw [hdrop]
      have hcond : (resumeActive (some p) &&
          !(⟨if some p = some e.full_path then true else st.resumed, st.records, st.writes,
            st.progress + 1⟩ : ScanState).resumed) = false := by
        have hres : (if some p = some e.full_path then true else st.resumed) = true := by
          rw [hpe]
          simp
        show (resumeActive (some p) &&
          !(if some p = some e.full_path then true else st.resumed)) = false
        rw [hres]
        simp
      have hproc := scanLoop_processed m (some p) rest
        ⟨if some p = some e.full_path then true else st.resumed, st.records, st.writes,
          st.progress + 1⟩ hcond
      rw [hproc]
      refine ⟨rfl, rfl, ?_⟩
      simp only [List.length_cons]
      omega
    · have hsome : ¬ (some p = some e.full_path) := by
        intro hc
        exact hpe (by injection hc with hc2; exact hc2.symm)
      have hdrop : dropThroughPath p (e :: rest) = dropThroughPath p rest := by
        rw [dropThroughPath, if_neg hpe]
      rw [hdrop]
      have hst : (⟨if some p = some e.full_path then true else st.resumed, st.records, st.writes,
          st.progress + 1⟩ : ScanState).resumed = false := by
        simp only [if_neg hsome]
        exact h
      have hih := ih ⟨if some p = some e.full_path then true else st.resumed, st.records,
        st.writes, st.progress + 1⟩ hst
      refine ⟨?_, ?_, ?_⟩
      · rw [hih.1]
      · rw [hih.2.1]
      · rw [hih.2.2]
        simp only [List.length_cons]
        omega

theorem scan_mount_point_spec (checkpoint : Option (Chars × Chars)) (m : Chars)
    (walk : List WalkEntry) :
    (scan_mount_point checkpoint m walk).records =
        emittedRecords m (effectiveWalk (checkpointResume checkpoint m) walk) ∧
    (scan_mount_point checkpoint m walk).writes =
        ((scan_mount_point checkpoint m walk).records).map (fun r => (m, r.full_path)) ∧
    (scan_mount_point checkpoint m walk).progress = walk.length ∧
    (scan_mount_point checkpoint m walk).checkpointAfter =
        (match ((scan_mount_point checkpoint m walk).records).getLast? with
         | some r => some (m, r.full_path)
         | none => checkpoint) := by
  have hbase :
      (scanLoop m (checkpointResume checkpoint m) walk ⟨false, [], [], 0⟩).records =
          emittedRecords m (effectiveWalk (checkpointResume checkpoint m) walk) ∧
      (scanLoop m (checkpointResume checkpoint m) walk ⟨false, [], [], 0⟩).writes =
          (emittedRecords m (effectiveWalk (checkpointResume checkpoint m) walk)).map
            (fun r => (m, r.full_path)) ∧
      (scanLoop m (checkpointResume checkpoint m) walk ⟨false, [], [], 0⟩).progress =
          walk.length := by
    cases hrf : checkpointResume checkpoint m with
    | none =>
      have hproc := scanLoop_processed m none walk ⟨false, [], [], 0⟩ rfl
      rw [hproc]
      simp [effectiveWalk]
    | some p =>
      cases p with
      | nil =>
        have hproc := scanLoop_processed m (some []) walk ⟨false, [], [], 0⟩ rfl
        rw [hproc]
        simp [effectiveWalk]
      | cons c cs =>
        have hres := scanLoop_resume m (c :: cs) (by simp) walk ⟨false, [], [], 0⟩ rfl
        refine ⟨?_, ?_, ?_⟩
        · rw [hres.1]
          simp [effectiveWalk]
        · rw [hres.2.1]
          simp [effectiveWalk]
        · rw [hres.2.2]
          simp
  refine ⟨hbase.1, ?_, hbase.2.2, ?_⟩
  · show (scanLoop m (checkpointResume checkpoint m) walk ⟨false, [], [], 0⟩).writes = _
    rw [hbase.2.1]
    rw [show (scan_mount_point checkpoint m walk).records =
      emittedRecords m (effectiveWalk (checkpointResume checkpoint m) walk) from hbase.1]
  · show (match (scanLoop m (checkpointResume checkpoint m) walk ⟨false, [], [], 0⟩).writes.getLast? with
      | some w => some w
      | none => checkpoint) = _
    rw [hbase.2.1, List.getLast?_map]
    rw [show (scan_mount_point checkpoint m walk).records =
      emittedRecords m (effectiveWalk (checkpointResume checkpoint m) walk) from hbase.1]
    cases (emittedRecords m (effectiveWalk (checkpointResume checkpoint m) walk)).getLast? with
    | none => rfl
    | some r => rfl

/-- C5: during `scan_mount_point`, files before (and including) the
checkpointed path of a same-mount checkpoint are skipped without a record
while progress still advances; afterwards (or with no applicable
checkpoint) each successfully stat-ed file produces one record and exactly
one checkpoint write `(mount_point, full_path)`, in order; progress counts
every walk entry. -/
theorem C5_scan_checkpoint_resume (checkpoint : Option (Chars × Chars)) (m : Chars)
    (walk : List WalkEntry) :
    (scan_mount_point checkpoint m walk).records =
        emittedRecords m (effectiveWalk (checkpointResume checkpoint m) walk) ∧
    (scan_mount_point checkpoint m walk).writes =
        ((scan_mount_point checkpoint m walk).records).map (fun r => (m, r.full_path)) ∧
    (scan_mount_point checkpoint m walk).progress = walk.length :=
  ⟨(scan_mount_point_spec checkpoint m walk).1,
   (scan_mount_point_spec checkpoint m walk).2.1,
   (scan_mount_point_spec checkpoint m walk).2.2.1⟩

theorem dropThroughPath_exists_pre (p : Chars) :
    ∀ l : List WalkEntry, ∃ l0, l = l0 ++ dropThroughPath p l := by
  intro l
  induction l with
  | nil => exact ⟨[], rfl⟩
  | cons e rest ih =>
    by_cases hpe : e.full_path = p
    · refine ⟨[e], ?_⟩
      rw [dropThroughPath, if_pos hpe]
      rfl
    · obtain ⟨l0, hl0⟩ := ih
      refine ⟨e :: l0, ?_⟩
      rw [dropThroughPath, if_neg hpe, List.cons_append, ← hl0]

theorem dropThroughPath_of_not_mem (p : Chars) :
    ∀ l : List WalkEntry, (∀ e ∈ l, ¬ e.full_path = p) → dropThroughPath p l = [] := by
  intro l
  induction l with
  | nil => intro _; rfl
  | cons e rest ih =>
    intro h
    rw [dropThroughPath, if_neg (h e (List.mem_cons_self e rest))]
    exact ih (fun x hx => h x (List.mem_cons_of_mem e hx))

theorem dropThroughPath_append (p : Chars) (e : WalkEntry) (post : List WalkEntry)
    (hpe : e.full_path = p) :
    ∀ pre : List WalkEntry, (∀ x ∈ pre, ¬ x.full_path = p) →
      dropThroughPath p (pre ++ e :: post) = post := by
  intro pre
  induction pre with
  | nil =>
    intro _
    rw [List.nil_append, dropThroughPath, if_pos hpe]
  | cons x xs ih =>
    intro h
    rw [List.cons_append, dropThroughPath, if_neg (h x (List.mem_cons_self x xs))]
    exact ih (fun y hy => h y (List.mem_cons_of_mem x hy))

theorem filterMap_getLast_decomp {α β : Type} (f : α → Option β) :
    ∀ (l : List α) (r : β), (l.filterMap f).getLast? = some r →
      ∃ l1 e l2, l = l1 ++ e :: l2 ∧ f e = some r ∧ l2.filterMap f = [] := by
  intro l
  induction l with
  | nil =>
    intro r h
    simp at h
  | cons x xs ih =>
    intro r h
    cases hfx : f x with
    | none =>
      rw [List.filterMap_cons_none hfx] at h
      obtain ⟨l1, e, l2, hl, hfe, hnil⟩ := ih r h
      exact ⟨x :: l1, e, l2, by rw [hl, List.cons_append], hfe, hnil⟩
    | some b =>
      rw [List.filterMap_cons_some hfx] at h
      cases ht : xs.filterMap f with
      | nil =>
        rw [ht] at h
        have hrb : b = r := by
          simpa using h
        exact ⟨[], x, xs, by rw [List.nil_append], by rw [hfx, hrb], ht⟩
      | cons c t' =>
        rw [ht] at h
        rw [List.getLast?_cons_cons] at h
        rw [← ht] at h
        obtain ⟨l1, e, l2, hl, hfe, hnil⟩ := ih r h
        exact ⟨x :: l1, e, l2, by rw [hl, List.cons_append], hfe, hnil⟩

theorem effectiveWalk_exists_pre (rf : Option Chars) (walk : List WalkEntry) :
    ∃ w0, walk = w0 ++ effectiveWalk rf walk := by
  cases rf with
  | none => exact ⟨[], rfl⟩
  | some p =>
    cases p with
    | nil => exact ⟨[], rfl⟩
    | cons c cs => exact dropThroughPath_exists_pre (c :: cs) walk

/-- C9: `scan_mount_point` never clears `checkpoint.json`.  After a scan of
mount `M` that emitted at least one record, the checkpoint names `M` and
the last emitted file's path, and immediately re-scanning `M` over the same
walk skips every file, returning no records; more generally, a checkpoint
for `M` whose (nonempty) stored path never occurs in the walk makes the
scan skip every file. -/
theorem C9_scan_checkpoint_not_cleared :
    (∀ (checkpoint : Option (Chars × Chars)) (m : Chars) (walk : List WalkEntry),
      (∀ e ∈ walk, e.full_path ≠ []) →
      (walk.map WalkEntry.full_path).Nodup →
      (scan_mount_point checkpoint m walk).records ≠ [] →
      ∃ r, ((scan_mount_point checkpoint m walk).records).getLast? = some r ∧
        (scan_mount_point checkpoint m walk).checkpointAfter = some (m, r.full_path) ∧
        (scan_mount_point (some (m, r.full_path)) m walk).records = []) ∧
    (∀ (m p : Chars) (walk : List WalkEntry),
      p ≠ [] → p ∉ walk.map WalkEntry.full_path →
      (scan_mount_point (some (m, p)) m walk).records = []) := by
  have part2 : ∀ (m p : Chars) (walk : List WalkEntry),
      p ≠ [] → p ∉ walk.map WalkEntry.full_path →
      (scan_mount_point (some (m, p)) m walk).records = [] := by
    intro m p walk hp hnotin
    rw [(scan_mount_point_spec (some (m, p)) m walk).1]
    have hrf : checkpointResume (some (m, p)) m = some p := by
      simp [checkpointResume]
    rw [hrf]
    cases p with
    | nil => exact absurd rfl hp
    | cons c cs =>
      show emittedRecords m (dropThroughPath (c :: cs) walk) = []
      rw [dropThroughPath_of_not_mem (c :: cs) walk]
      · rfl
      · intro e he hc
        exact hnotin (by rw [← hc]; exact List.mem_map_of_mem WalkEntry.full_path he)
  refine ⟨?_, part2⟩
  intro checkpoint m walk hpaths hnd hne
  have hspec := scan_mount_point_spec checkpoint m walk
  rw [hspec.1] at hne
  cases hE : (emittedRecords m (effectiveWalk (checkpointResume checkpoint m) walk)).getLast? with
  | none =>
    rw [List.getLast?_eq_none_iff] at hE
    exact absurd hE hne
  | some r =>
    refine ⟨r, ?_, ?_, ?_⟩
    · rw [hspec.1, hE]
    · rw [hspec.2.2.2, hspec.1, hE]
    · -- locate the last-emitted entry and show everything after it fails to stat
      obtain ⟨l1, e, l2, hew, hfe, hl2⟩ :=
        filterMap_getLast_decomp _ (effectiveWalk (checkpointResume checkpoint m) walk) r hE
      obtain ⟨w0, hw0⟩ := effectiveWalk_exists_pre (checkpointResume checkpoint m) walk
      have hwalk : walk = (w0 ++ l1) ++ e :: l2 := by
        rw [hw0, hew, List.append_assoc]
      have hrpath : r.full_path = e.full_path := by
        cases hstat : e.stat with
        | none => rw [hstat] at hfe; exact absurd hfe (by simp)
        | some q =>
          rw [hstat] at hfe
          have : some (⟨e.file_key, e.full_path, m, q.1, q.2⟩ : FileRecord) = some r := by
            simpa using hfe
          have heq : (⟨e.file_key, e.full_path, m, q.1, q.2⟩ : FileRecord) = r := by
            injection this
          rw [← heq]
      have hemem : e ∈ walk := by
        rw [hwalk]
        exact List.mem_append_right _ (List.mem_cons_self e l2)
      have hepne : e.full_path ≠ [] := hpaths e hemem
      have hnotpre : ∀ x ∈ w0 ++ l1, ¬ x.full_path = e.full_path := by
        intro x hx hc
        have hnd' := hnd
        rw [hwalk, List.map_append, List.map_cons] at hnd'
        have hdisj := (List.nodup_append.mp hnd').2.2
        exact hdisj (by rw [← hc]; exact List.mem_map_of_mem WalkEntry.full_path hx)
          (List.mem_cons_self e.full_path (l2.map WalkEntry.full_path))
      rw [(scan_mount_point_spec (some (m, r.full_path)) m walk).1]
      have hrf : checkpointResume (some (m, r.full_path)) m = some r.full_path := by
        simp [checkpointResume]
      rw [hrf, hrpath]
      cases hep : e.full_path with
      | nil => exact absurd hep hepne
      | cons c cs =>
        show emittedRecords m (dropThroughPath (c :: cs) walk) = []
        rw [hwalk, dropThroughPath_append (c :: cs) e l2 hep (w0 ++ l1)
          (by intro x hx; rw [← hep]; exact hnotpre x hx)]
        exact hl2

/-- Closed instance of `C9_scan_checkpoint_not_cleared` on a one-file walk. -/
theorem C9_scan_checkpoint_not_cleared_witness :
    (∃ r, ((scan_mount_point none (pstr "/m")
        [⟨pstr "/m/a", pstr "a", some (1, 0)⟩]).records).getLast? = some r ∧
      (scan_mount_point none (pstr "/m")
        [⟨pstr "/m/a", pstr "a", some (1, 0)⟩]).checkpointAfter = some (pstr "/m", r.full_path) ∧
      (scan_mount_point (some (pstr "/m", r.full_path)) (pstr "/m")
        [⟨pstr "/m/a", pstr "a", some (1, 0)⟩]).records = []) ∧
    (scan_mount_point (some (pstr "/m", pstr "/x")) (pstr "/m")
        [⟨pstr "/m/a", pstr "a", some (1, 0)⟩]).records = [] :=
  ⟨C9_scan_checkpoint_not_cleared.1 none (pstr "/m")
      [⟨pstr "/m/a", pstr "a", some (1, 0)⟩] (by decide) (by decide) (by decide),
   C9_scan_checkpoint_not_cleared.2 (pstr "/m") (pstr "/x")
      [⟨pstr "/m/a", pstr "a", some (1, 0)⟩] (by decide) (by decide)⟩

/-- One insertion into the Python dict
`existing_files = {row[1]: row for row in c.fetchall()}`: overwriting an
existing key keeps its position, a new key is appended (Python dicts
preserve insertion order). -/
def insertD (d : List (Chars × FileRecord)) (k : Chars) (v : FileRecord) :
    List (Chars × FileRecord) :=
  match d with
  | [] => [(k, v)]
  | (k2, v2) :: rest => if k2 = k then (k, v) :: rest else (k2, v2) :: insertD rest k v

/-- The dict comprehension keyed by `full_path` (`row[1]`). -/
def buildDict (rows : List FileRecord) : List (Chars × FileRecord) :=
  rows.foldl (fun d r => insertD d r.full_path r) []

/-- `full_path in existing_files` / `existing_files[full_path]`. -/
def lookupD : List (Chars × FileRecord) → Chars → Option FileRecord
  | [], _ => none
  | (k, v) :: rest, p => if k = p then some v else lookupD rest p

/-- `del existing_files[full_path]`. -/
def eraseKey : List (Chars × FileRecord) → Chars → List (Chars × FileRecord)
  | [], _ => []
  | (k, v) :: rest, p => if k = p then rest else (k, v) :: eraseKey rest p

/-- State of the walk loop of `scanner.update_mount_point`: the remaining
`existing_files` dict and the `updated_files` / `new_files` accumulators. -/
structure LoopState where
  existing : List (Chars × FileRecord)
  updated : List FileRecord
  newFiles : List FileRecord
deriving DecidableEq, Repr

/-- The walk loop of `scanner.update_mount_point` (lines 97-115): stat each
file (skipping on `OSError`); a path present in the dict is compared on
mtime/size (a mismatch records an update), and removed from the dict in
either case; an absent path is recorded as new. -/
def walkLoop (m : Chars) : List WalkEntry → LoopState → LoopState
  | [], st => st
  | e :: rest, st =>
    match e.stat with
    | none => walkLoop m rest st
    | some (sz, mt) =>
      match lookupD st.existing e.full_path with
      | some old =>
        if mt ≠ old.last_modified ∨ sz ≠ old.file_size then
          walkLoop m rest ⟨eraseKey st.existing e.full_path,
            st.updated ++ [⟨e.file_key, e.full_path, m, sz, mt⟩], st.newFiles⟩
        else
          walkLoop m rest ⟨eraseKey st.existing e.full_path, st.updated, st.newFiles⟩
      | none =>
        walkLoop m rest ⟨st.existing, st.updated,
          st.newFiles ++ [⟨e.file_key, e.full_path, m, sz, mt⟩]⟩

/-- `DELETE FROM files WHERE full_path = ?` (matches rows of any mount). -/
def deleteByPath (p : Chars) (cat : Catalog) : Catalog :=
  cat.filter (fun r => decide (¬ r.full_path = p))

/-- `UPDATE files SET file_size = ?, last_modified = ? WHERE full_path = ?`
(matches rows of any mount). -/
def updateByPath (u : FileRecord) (cat : Catalog) : Catalog :=
  cat.map (fun r => if r.full_path = u.full_path then
    { r with file_size := u.file_size, last_modified := u.last_modified } else r)

/-- `INSERT INTO files ...` under the `UNIQUE(file_key, full_path)`
constraint: appends the row, or fails (`IntegrityError`) when a row with
the same pair already exists. -/
def insertNew (r : FileRecord) (cat : Catalog) : Option Catalog :=
  if cat.any (fun x => decide (x.file_key = r.file_key) && decide (x.full_path = r.full_path)) then
    none
  else some (cat ++ [r])

def insertAll : List FileRecord → Catalog → Option Catalog
  | [], cat => some cat
  | r :: rs, cat =>
    match insertNew r cat with
    | none => none
    | some cat2 => insertAll rs cat2

/-- Structural helper for `process_files_in_batches`: `fuel` bounds the
number of slices (any `fuel ≥ files.length` gives the same result). -/
def batchesFuel {α : Type} : Nat → List α → Nat → List (List α)
  | _, [], _ => []
  | 0, _ :: _, _ => []
  | fuel + 1, f :: fs, b =>
    if b = 0 then []
    else (f :: fs).take b :: batchesFuel fuel ((f :: fs).drop b) b

/-- `utils.process_files_in_batches`: the slices
`files[i:i+batch_size]` for `i = 0, batch_size, ...`.  Python's `range`
raises on a zero step; `batchSize = 0` is outside the modelled domain and
yields `[]`. -/
def process_files_in_batches {α : Type} (files : List α) (batchSize : Nat) : List (List α) :=
  batchesFuel files.length files batchSize

/-- One database operation performed by `update_mount_point` after the
walk: the single `executemany` delete over all removed paths, one
`executemany` per batch of updates (rows `(file_size, last_modified,
full_path)`), one `executemany` per batch of inserts, and `conn.commit()`. -/
inductive DbOp where
  | deleteRemoved (paths : List Chars)
  | updateBatch (rows : List (Nat × Int × Chars))
  | insertBatch (rows : List FileRecord)
  | commit
deriving DecidableEq, Repr

/-- Result of a successful `update_mount_point` run: the new catalog, the
reported updated/added/removed counts, and the trace of database
operations in execution order. -/
structure UpdateResult where
  catalog : Catalog
  updated : Nat
  added : Nat
  removed : Nat
  trace : List DbOp
deriving DecidableEq, Repr

/-- The `executemany` delete loop over the leftover snapshot paths. -/
def deleteAll (paths : List Chars) (cat : Catalog) : Catalog :=
  paths.foldl (fun c p => deleteByPath p c) cat

/-- The batched `executemany` update loop. -/
def applyUpdateBatches (ubatches : List (List FileRecord)) (cat : Catalog) : Catalog :=
  ubatches.foldl (fun c bt => bt.foldl (fun c2 u => updateByPath u c2) c) cat

/-- The batched `executemany` insert loop; a unique-constraint violation in
any batch aborts the run. -/
def applyInsertBatches (ibatches : List (List FileRecord)) (cat : Catalog) : Option Catalog :=
  ibatches.foldl (fun acc bt =>
    match acc with
    | none => none
    | some c => insertAll bt c) (some cat)

/-- `scanner.update_mount_point`: snapshot the mount's rows keyed by
`full_path`, walk the filesystem classifying files, then delete all
leftover snapshot paths in one `executemany`, apply updates in batches,
insert new rows in batches, and commit once at the end.  An insert that
violates `UNIQUE(file_key, full_path)` raises `IntegrityError`; nothing
was committed, so the transaction is rolled back: modelled as
`Except.error ()` with the catalog unchanged. -/
def update_mount_point (batchSize : Nat) (m : Chars) (walk : List WalkEntry)
    (cat : Catalog) : Except Unit UpdateResult :=
  let st := walkLoop m walk
    ⟨buildDict (cat.filter (fun r => decide (r.mount_point = m))), [], []⟩
  let removedPaths := st.existing.map Prod.fst
  let cat1 := deleteAll removedPaths cat
  let ubatches := process_files_in_batches st.updated batchSize
  let cat2 := applyUpdateBatches ubatches cat1
  let ibatches := process_files_in_batches st.newFiles batchSize
  match applyInsertBatches ibatches cat2 with
  | none => Except.error ()
  | some cat3 =>
    Except.ok
      { catalog := cat3
        updated := st.updated.length
        added := st.newFiles.length
        removed := st.existing.length
        trace := DbOp.deleteRemoved removedPaths ::
          (ubatches.map (fun bt => DbOp.updateBatch
            (bt.map (fun u => (u.file_size, u.last_modified, u.full_path)))) ++
          ibatches.map DbOp.insertBatch ++ [DbOp.commit]) }

def isBatchOp : DbOp → Bool
  | DbOp.deleteRemoved _ => true
  | DbOp.updateBatch _ => true
  | DbOp.insertBatch _ => true
  | DbOp.commit => false

def isCommitOp : DbOp → Bool
  | DbOp.commit => true
  | _ => false

/-- Formalisation of "each batch committed in its own transaction": every
batch operation in the trace is immediately followed by a commit. -/
def eachBatchCommitted : List DbOp → Bool
  | [] => true
  | op :: rest =>
    (!isBatchOp op || (match rest.head? with
      | some DbOp.commit => true
      | _ => false)) && eachBatchCommitted rest

/-- The trace of a finished `update_mount_point` run (empty on the
rolled-back error path, where no commit happens at all). -/
def updateTrace (r : Except Unit UpdateResult) : List DbOp :=
  match r with
  | Except.ok res => res.trace
  | Except.error _ => []

/-- Whether an `update_mount_point` run finished without an
`IntegrityError`. -/
def updateOk (r : Except Unit UpdateResult) : Bool :=
  match r with
  | Except.ok _ => true
  | Except.error _ => false

/-- C6 counterexample: with batch size 1, one stale catalog row and two new
files, `update_mount_point` succeeds with a trace containing three batch
operations (one unchunked delete and two insert batches) but only one
commit, at the very end — so the batches are not each committed in their
own transaction as the claim states. -/
theorem C6_commit_per_batch_counterexample :
    updateOk (update_mount_point 1 (pstr "/m")
        [⟨pstr "/m/b", pstr "b", some (1, 0)⟩, ⟨pstr "/m/c", pstr "c", some (2, 0)⟩]
        [⟨pstr "a", pstr "/m/a", pstr "/m", 1, 0⟩]) = true ∧
    eachBatchCommitted (updateTrace (update_mount_point 1 (pstr "/m")
        [⟨pstr "/m/b", pstr "b", some (1, 0)⟩, ⟨pstr "/m/c", pstr "c", some (2, 0)⟩]
        [⟨pstr "a", pstr "/m/a", pstr "/m", 1, 0⟩])) = false ∧
    ((updateTrace (update_mount_point 1 (pstr "/m")
        [⟨pstr "/m/b", pstr "b", some (1, 0)⟩, ⟨pstr "/m/c", pstr "c", some (2, 0)⟩]
        [⟨pstr "a", pstr "/m/a", pstr "/m", 1, 0⟩])).filter isBatchOp).length = 3 ∧
    ((updateTrace (update_mount_point 1 (pstr "/m")
        [⟨pstr "/m/b", pstr "b", some (1, 0)⟩, ⟨pstr "/m/c", pstr "c", some (2, 0)⟩]
        [⟨pstr "a", pstr "/m/a", pstr "/m", 1, 0⟩])).filter isCommitOp).length = 1 := by
  refine ⟨by decide, by decide, by decide, by decide⟩

theorem update_mount_point_ok_inv (b : Nat) (m : Chars) (walk : List WalkEntry)
    (cat : Catalog) (res : UpdateResult)
    (h : update_mount_point b m walk cat = Except.ok res) :
    applyInsertBatches
        (process_files_in_batches
          (walkLoop m walk
            ⟨buildDict (cat.filter (fun r => decide (r.mount_point = m))), [], []⟩).newFiles b)
        (applyUpdateBatches
          (process_files_in_batches
            (walkLoop m walk
              ⟨buildDict (cat.filter (fun r => decide (r.mount_point = m))), [], []⟩).updated b)
          (deleteAll
            ((walkLoop m walk
              ⟨buildDict (cat.filter (fun r => decide (r.mount_point = m))), [], []⟩).existing.map
                Prod.fst)
            cat)) = some res.catalog ∧
    res.updated =
      (walkLoop m walk
        ⟨buildDict (cat.filter (fun r => decide (r.mount_point = m))), [], []⟩).updated.length ∧
    res.added =
      (walkLoop m walk
        ⟨buildDict (cat.filter (fun r => decide (r.mount_point = m))), [], []⟩).newFiles.length ∧
    res.removed =
      (walkLoop m walk
        ⟨buildDict (cat.filter (fun r => decide (r.mount_point = m))), [], []⟩).existing.length ∧
    res.trace =
      DbOp.deleteRemoved
        ((walkLoop m walk
          ⟨buildDict (cat.filter (fun r => decide (r.mount_point = m))), [], []⟩).existing.map
            Prod.fst) ::
      ((process_files_in_batches
          (walkLoop m walk
            ⟨buildDict (cat.filter (fun r => decide (r.mount_point = m))), [], []⟩).updated b).map
        (fun bt => DbOp.updateBatch
          (bt.map (fun u => (u.file_size, u.last_modified, u.full_path)))) ++
      (process_files_in_batches
          (walkLoop m walk
            ⟨buildDict (cat.filter (fun r => decide (r.mount_point = m))), [], []⟩).newFiles b).map
        DbOp.insertBatch ++ [DbOp.commit]) := by
  simp only [update_mount_point] at h
  split at h
  · exact absurd h (by simp)
  · injection h with h2
    subst h2
    refine ⟨?_, rfl, rfl, rfl, rfl⟩
    assumption

theorem batchesFuel_mem_length {α : Type} (b : Nat) :
    ∀ (fuel : Nat) (files : List α) (c : List α),
      c ∈ batchesFuel fuel files b → c.length ≤ b := by
  intro fuel
  induction fuel with
  | zero =>
    intro files c hc
    cases files <;> simp [batchesFuel] at hc
  | succ n ih =>
    intro files c hc
    cases files with
    | nil => simp [batchesFuel] at hc
    | cons f fs =>
      rw [batchesFuel] at hc
      by_cases hb : b = 0
      · rw [if_pos hb] at hc
        simp at hc
      · rw [if_neg hb] at hc
        rcases List.mem_cons.mp hc with rfl | hc2
        · rw [List.length_take]
          exact min_le_left _ _
        · exact ih _ c hc2

theorem chunk_mem_length {α : Type} (b : Nat) (files : List α) (c : List α)
    (hc : c ∈ process_files_in_batches files b) : c.length ≤ b :=
  batchesFuel_mem_length b files.length files c hc

/-- C6 amended: on every successful run the diff is applied as three
separate operations — a single `executemany` delete covering all removed
paths (not chunked), updates chunked at the configured batch size, and
inserts chunked at the configured batch size — but the run commits exactly
once, at the very end, rather than committing each batch in its own
transaction. -/
theorem C6_update_trace_shape (b : Nat) (m : Chars) (walk : List WalkEntry)
    (cat : Catalog) (res : UpdateResult)
    (h : update_mount_point b m walk cat = Except.ok res) :
    (∃ (removedPaths : List Chars) (ubatches ibatches : List (List FileRecord)),
      res.trace = DbOp.deleteRemoved removedPaths ::
        (ubatches.map (fun bt => DbOp.updateBatch
          (bt.map (fun u : FileRecord => (u.file_size, u.last_modified, u.full_path)))) ++
        ibatches.map DbOp.insertBatch ++ [DbOp.commit]) ∧
      removedPaths.length = res.removed ∧
      (∀ bt ∈ ubatches, bt.length ≤ b) ∧
      (∀ bt ∈ ibatches, bt.length ≤ b)) ∧
    (res.trace.filter isCommitOp).length = 1 ∧
    res.trace.getLast? = some DbOp.commit := by
  obtain ⟨-, -, -, hrem, htrace⟩ := update_mount_point_ok_inv b m walk cat res h
  constructor
  · refine ⟨_, _, _, htrace, ?_, ?_, ?_⟩
    · rw [hrem, List.length_map]
    · intro bt hbt
      exact chunk_mem_length b _ bt hbt
    · intro bt hbt
      exact chunk_mem_length b _ bt hbt
  · constructor
    · rw [htrace]
      rw [List.filter_cons]
      have h1 : ∀ ps, isCommitOp (DbOp.deleteRemoved ps) = false := fun ps => rfl
      rw [h1]
      simp only [Bool.false_eq_true, if_neg, not_false_eq_true]
      rw [List.filter_append, List.filter_append]
      have h2 : ∀ (l : List (List FileRecord)),
          (l.map (fun bt => DbOp.updateBatch
            (bt.map (fun u : FileRecord => (u.file_size, u.last_modified, u.full_path))))).filter
              isCommitOp = [] := by
        intro l
        apply List.filter_eq_nil_iff.mpr
        intro op hop
        obtain ⟨bt, _, rfl⟩ := List.mem_map.mp hop
        simp [isCommitOp]
      have h3 : ∀ (l : List (List FileRecord)),
          (l.map DbOp.insertBatch).filter isCommitOp = [] := by
        intro l
        apply List.filter_eq_nil_iff.mpr
        intro op hop
        obtain ⟨bt, _, rfl⟩ := List.mem_map.mp hop
        simp [isCommitOp]
      rw [h2, h3]
      rfl
    · rw [htrace]
      rw [show DbOp.deleteRemoved ((walkLoop m walk
          ⟨buildDict (cat.filter (fun r => decide (r.mount_point = m))), [], []⟩).existing.map
            Prod.fst) ::
        ((process_files_in_batches (walkLoop m walk
            ⟨buildDict (cat.filter (fun r => decide (r.mount_point = m))), [], []⟩).updated b).map
          (fun bt => DbOp.updateBatch
            (bt.map (fun u => (u.file_size, u.last_modified, u.full_path)))) ++
        (process_files_in_batches (walkLoop m walk
            ⟨buildDict (cat.filter (fun r => decide (r.mount_point = m))), [], []⟩).newFiles b).map
          DbOp.insertBatch ++ [DbOp.commit]) =
        (DbOp.deleteRemoved ((walkLoop m walk
          ⟨buildDict (cat.filter (fun r => decide (r.mount_point = m))), [], []⟩).existing.map
            Prod.fst) ::
        ((process_files_in_batches (walkLoop m walk
            ⟨buildDict (cat.filter (fun r => decide (r.mount_point = m))), [], []⟩).updated b).map
          (fun bt => DbOp.updateBatch
            (bt.map (fun u => (u.file_size, u.last_modified, u.full_path)))) ++
        (process_files_in_batches (walkLoop m walk
            ⟨buildDict (cat.filter (fun r => decide (r.mount_point = m))), [], []⟩).newFiles b).map
          DbOp.insertBatch)) ++ [DbOp.commit] from by
        rw [List.cons_append, List.append_assoc]]
      rw [List.getLast?_concat]

/-- Closed instance of `C6_update_trace_shape` on a one-new-file run. -/
theorem C6_update_trace_shape_witness :
    ∃ res : UpdateResult,
      update_mount_point 1 (pstr "/m") [⟨pstr "/m/b", pstr "b", some (1, 0)⟩] [] =
        Except.ok res ∧
      (res.trace.filter isCommitOp).length = 1 ∧
      res.trace.getLast? = some DbOp.commit := by
  refine ⟨_, rfl, ?_⟩
  exact (C6_update_trace_shape 1 (pstr "/m") [⟨pstr "/m/b", pstr "b", some (1, 0)⟩] [] _ rfl).2

/-- The keys of the dict are pairwise distinct (true of any Python dict). -/
def keysND (d : List (Chars × FileRecord)) : Prop := (d.map Prod.fst).Nodup

theorem lookup_insertD (k : Chars) (v : FileRecord) (q : Chars) :
    ∀ d : List (Chars × FileRecord),
      lookupD (insertD d k v) q = if q = k then some v else lookupD d q := by
  intro d
  induction d with
  | nil =>
    show (if k = q then some v else none) = if q = k then some v else lookupD [] q
    by_cases hq : q = k
    · rw [if_pos hq.symm, if_pos hq]
    · rw [if_neg (fun hc : k = q => hq hc.symm), if_neg hq]
      rfl
  | cons kv rest ih =>
    obtain ⟨k2, v2⟩ := kv
    rw [insertD]
    by_cases h2 : k2 = k
    · rw [if_pos h2]
      show (if k = q then some v else lookupD rest q) =
        if q = k then some v else (if k2 = q then some v2 else lookupD rest q)
      by_cases hq : q = k
      · rw [if_pos hq.symm, if_pos hq]
      · have hkq : ¬ k = q := fun hc => hq hc.symm
        have hk2q : ¬ k2 = q := fun hc => hq ((h2.symm.trans hc).symm)
        rw [if_neg hkq, if_neg hq, if_neg hk2q]
    · rw [if_neg h2]
      show (if k2 = q then some v2 else lookupD (insertD rest k v) q) =
        if q = k then some v else (if k2 = q then some v2 else lookupD rest q)
      by_cases hk2q : k2 = q
      · have hq : ¬ q = k := fun hc => h2 (hk2q.trans hc)
        rw [if_pos hk2q, if_neg hq, if_pos hk2q]
      · rw [if_neg hk2q, ih]
        by_cases hq : q = k
        · rw [if_pos hq, if_pos hq]
        · rw [if_neg hq, if_neg hq, if_neg hk2q]

theorem insertD_sub_keys (k : Chars) (v : FileRecord) :
    ∀ (d : List (Chars × FileRecord)) (q : Chars),
      q ∈ (insertD d k v).map Prod.fst → q = k ∨ q ∈ d.map Prod.fst := by
  intro d
  induction d with
  | nil =>
    intro q hq
    simp [insertD] at hq
    exact Or.inl hq
  | cons kv rest ih =>
    obtain ⟨k2, v2⟩ := kv
    intro q hq
    rw [insertD] at hq
    by_cases h2 : k2 = k
    · rw [if_pos h2] at hq
      simp only [List.map_cons, List.mem_cons] at hq
      rcases hq with rfl | hq
      · exact Or.inl rfl
      · exact Or.inr (by simp only [List.map_cons, List.mem_cons]; exact Or.inr hq)
    · rw [if_neg h2] at hq
      simp only [List.map_cons, List.mem_cons] at hq
      rcases hq with rfl | hq
      · exact Or.inr (List.mem_cons.mpr (Or.inl rfl))
      · rcases ih q hq with hk | hmem
        · exact Or.inl hk
        · exact Or.inr (by simp only [List.map_cons, List.mem_cons]; exact Or.inr hmem)

theorem keysND_insertD (k : Chars) (v : FileRecord) :
    ∀ d : List (Chars × FileRecord), keysND d → keysND (insertD d k v) := by
  intro d
  induction d with
  | nil =>
    intro _
    simp [insertD, keysND]
  | cons kv rest ih =>
    obtain ⟨k2, v2⟩ := kv
    intro hnd
    have hk2 : k2 ∉ rest.map Prod.fst := by
      have h0 := hnd
      unfold keysND at h0
      simp only [List.map_cons] at h0
      exact (List.nodup_cons.mp h0).1
    have hrest : keysND rest := by
      have h0 := hnd
      unfold keysND at h0
      simp only [List.map_cons] at h0
      exact (List.nodup_cons.mp h0).2
    rw [insertD]
    by_cases h2 : k2 = k
    · rw [if_pos h2]
      unfold keysND
      simp only [List.map_cons]
      exact List.nodup_cons.mpr ⟨by rw [← h2]; exact hk2, hrest⟩
    · rw [if_neg h2]
      unfold keysND
      simp only [List.map_cons]
      refine List.nodup_cons.mpr ⟨?_, ih hrest⟩
      intro hc
      rcases insertD_sub_keys k v rest k2 hc with hk | hmem
      · exact h2 hk
      · exact hk2 hmem

theorem buildDict_fold_lookup (p : Chars) :
    ∀ (rows : List FileRecord) (d : List (Chars × FileRecord)),
      lookupD (rows.foldl (fun d r => insertD d r.full_path r) d) p =
        match (rows.filter (fun r => decide (r.full_path = p))).getLast? with
        | some r => some r
        | none => lookupD d p := by
  intro rows
  induction rows with
  | nil =>
    intro d
    rfl
  | cons r rest ih =>
    intro d
    simp only [List.foldl_cons]
    rw [ih (insertD d r.full_path r)]
    rw [List.filter_cons]
    by_cases hp : r.full_path = p
    · have hp2 : (decide (r.full_path = p)) = true := by simpa using hp
      rw [hp2, if_pos rfl]
      cases ht : (rest.filter (fun r => decide (r.full_path = p))).getLast? with
      | some r2 =>
        have hlast : (r :: rest.filter (fun r => decide (r.full_path = p))).getLast? = some r2 := by
          cases hrest : rest.filter (fun r => decide (r.full_path = p)) with
          | nil => rw [hrest] at ht; simp at ht
          | cons c t =>
            rw [hrest] at ht
            rw [List.getLast?_cons_cons]
            exact ht
        rw [hlast]
      | none =>
        have hnil : rest.filter (fun r => decide (r.full_path = p)) = [] :=
          List.getLast?_eq_none_iff.mp ht
        rw [hnil]
        rw [lookup_insertD, if_pos hp.symm]
        rfl
    · have hp2 : (decide (r.full_path = p)) = false := by simpa using hp
      rw [hp2]
      simp only [Bool.false_eq_true, if_neg, not_false_eq_true]
      cases ht : (rest.filter (fun r => decide (r.full_path = p))).getLast? with
      | some r2 => rfl
      | none =>
        rw [lookup_insertD, if_neg (fun hc : p = r.full_path => hp hc.symm)]

theorem buildDict_lookup (rows : List FileRecord) (p : Chars) :
    lookupD (buildDict rows) p =
      (rows.filter (fun r => decide (r.full_path = p))).getLast? := by
  unfold buildDict
  rw [buildDict_fold_lookup]
  cases (rows.filter (fun r => decide (r.full_path = p))).getLast? with
  | some r => rfl
  | none => rfl

theorem keysND_buildDict (rows : List FileRecord) : keysND (buildDict rows) := by
  unfold buildDict
  have hfold : ∀ (rs : List FileRecord) (d : List (Chars × FileRecord)), keysND d →
      keysND (rs.foldl (fun d r => insertD d r.full_path r) d) := by
    intro rs
    induction rs with
    | nil => intro d hd; exact hd
    | cons r rest ih =>
      intro d hd
      simp only [List.foldl_cons]
      exact ih _ (keysND_insertD r.full_path r d hd)
  exact hfold rows [] List.nodup_nil

theorem lookup_eraseKey_ne (p q : Chars) (h : ¬ q = p) :
    ∀ d : List (Chars × FileRecord), lookupD (eraseKey d p) q = lookupD d q := by
  intro d
  induction d with
  | nil => rfl
  | cons kv rest ih =>
    obtain ⟨k, v⟩ := kv
    rw [eraseKey]
    by_cases hk : k = p
    · rw [if_pos hk, lookupD, if_neg (fun hc : k = q => h ((hk.symm.trans hc).symm))]
    · rw [if_neg hk, lookupD, lookupD]
      by_cases hkq : k = q
      · rw [if_pos hkq, if_pos hkq]
      · rw [if_neg hkq, if_neg hkq, ih]

theorem lookupD_some_mem_keys (q : Chars) :
    ∀ (d : List (Chars × FileRecord)) (v : FileRecord),
      lookupD d q = some v → q ∈ d.map Prod.fst := by
  intro d
  induction d with
  | nil => intro v h3; simp [lookupD] at h3
  | cons kv rest ih =>
    obtain ⟨k, v2⟩ := kv
    intro v h3
    rw [lookupD] at h3
    by_cases hk : k = q
    · simp only [List.map_cons, List.mem_cons]
      exact Or.inl hk.symm
    · rw [if_neg hk] at h3
      simp only [List.map_cons, List.mem_cons]
      exact Or.inr (ih v h3)

theorem lookup_eraseKey_self (p : Chars) :
    ∀ d : List (Chars × FileRecord), keysND d → lookupD (eraseKey d p) p = none := by
  intro d
  induction d with
  | nil => intro _; rfl
  | cons kv rest ih =>
    obtain ⟨k, v⟩ := kv
    intro hnd
    have hk2 : k ∉ rest.map Prod.fst := by
      have h0 := hnd
      unfold keysND at h0
      simp only [List.map_cons] at h0
      exact (List.nodup_cons.mp h0).1
    have hrest : keysND rest := by
      have h0 := hnd
      unfold keysND at h0
      simp only [List.map_cons] at h0
      exact (List.nodup_cons.mp h0).2
    rw [eraseKey]
    by_cases hk : k = p
    · rw [if_pos hk]
      subst hk
      cases hl : lookupD rest k with
      | none => rfl
      | some v2 =>
        exact absurd (lookupD_some_mem_keys k rest v2 hl) hk2
    · rw [if_neg hk, lookupD, if_neg hk]
      exact ih hrest

theorem eraseKey_sublist (p : Chars) :
    ∀ d : List (Chars × FileRecord), (eraseKey d p).Sublist d := by
  intro d
  induction d with
  | nil => exact List.Sublist.refl []
  | cons kv rest ih =>
    obtain ⟨k, v⟩ := kv
    rw [eraseKey]
    by_cases hk : k = p
    · rw [if_pos hk]
      exact List.sublist_cons_of_sublist _ (List.Sublist.refl rest)
    · rw [if_neg hk]
      exact List.Sublist.cons₂ _ ih

theorem keysND_eraseKey (p : Chars) (d : List (Chars × FileRecord)) (h : keysND d) :
    keysND (eraseKey d p) :=
  List.Nodup.sublist (List.Sublist.map Prod.fst (eraseKey_sublist p d)) h

theorem lookupD_none_iff (q : Chars) :
    ∀ d : List (Chars × FileRecord), lookupD d q = none ↔ q ∉ d.map Prod.fst := by
  intro d
  induction d with
  | nil => simp [lookupD]
  | cons kv rest ih =>
    obtain ⟨k, v⟩ := kv
    rw [lookupD]
    by_cases hk : k = q
    · rw [if_pos hk]
      constructor
      · intro hc
        exact absurd hc (Option.some_ne_none v)
      · intro hn
        exact (hn (List.mem_cons.mpr (Or.inl hk.symm))).elim
    · rw [if_neg hk]
      simp only [List.map_cons, List.mem_cons]
      rw [ih]
      constructor
      · intro hn hc
        rcases hc with hc | hc
        · exact hk hc.symm
        · exact hn hc
      · intro hn
        exact fun hc => hn (Or.inr hc)

theorem walkLoop_step_none (m : Chars) (e : WalkEntry) (rest : List WalkEntry)
    (st : LoopState) (hstat : e.stat = none) :
    walkLoop m (e :: rest) st = walkLoop m rest st := by
  rw [walkLoop, hstat]

theorem walkLoop_step_updated (m : Chars) (e : WalkEntry) (rest : List WalkEntry)
    (st : LoopState) (sz : Nat) (mt : Int) (old : FileRecord)
    (hstat : e.stat = some (sz, mt)) (hlk : lookupD st.existing e.full_path = some old)
    (hch : mt ≠ old.last_modified ∨ sz ≠ old.file_size) :
    walkLoop m (e :: rest) st = walkLoop m rest
      ⟨eraseKey st.existing e.full_path,
        st.updated ++ [⟨e.file_key, e.full_path, m, sz, mt⟩], st.newFiles⟩ := by
  rw [walkLoop, hstat, hlk]
  show (if mt ≠ old.last_modified ∨ sz ≠ old.file_size then
      walkLoop m rest ⟨eraseKey st.existing e.full_path,
        st.updated ++ [⟨e.file_key, e.full_path, m, sz, mt⟩], st.newFiles⟩
    else walkLoop m rest
      ⟨eraseKey st.existing e.full_path, st.updated, st.newFiles⟩) = _
  rw [if_pos hch]

theorem walkLoop_step_unchanged (m : Chars) (e : WalkEntry) (rest : List WalkEntry)
    (st : LoopState) (sz : Nat) (mt : Int) (old : FileRecord)
    (hstat : e.stat = some (sz, mt)) (hlk : lookupD st.existing e.full_path = some old)
    (hch : ¬ (mt ≠ old.last_modified ∨ sz ≠ old.file_size)) :
    walkLoop m (e :: rest) st = walkLoop m rest
      ⟨eraseKey st.existing e.full_path, st.updated, st.newFiles⟩ := by
  rw [walkLoop, hstat, hlk]
  show (if mt ≠ old.last_modified ∨ sz ≠ old.file_size then
      walkLoop m rest ⟨eraseKey st.existing e.full_path,
        st.updated ++ [⟨e.file_key, e.full_path, m, sz, mt⟩], st.newFiles⟩
    else walkLoop m rest
      ⟨eraseKey st.existing e.full_path, st.updated, st.newFiles⟩) = _
  rw [if_neg hch]

theorem walkLoop_step_new (m : Chars) (e : WalkEntry) (rest : List WalkEntry)
    (st : LoopState) (sz : Nat) (mt : Int)
    (hstat : e.stat = some (sz, mt)) (hlk : lookupD st.existing e.full_path = none) :
    walkLoop m (e :: rest) st = walkLoop m rest
      ⟨st.existing, st.updated, st.newFiles ++ [⟨e.file_key, e.full_path, m, sz, mt⟩]⟩ := by
  rw [walkLoop, hstat, hlk]

theorem walkLoop_append (m : Chars) (w2 : List WalkEntry) :
    ∀ (w1 : List WalkEntry) (st : LoopState),
      walkLoop m (w1 ++ w2) st = walkLoop m w2 (walkLoop m w1 st) := by
  intro w1
  induction w1 with
  | nil => intro st; rfl
  | cons e rest ih =>
    intro st
    rw [List.cons_append]
    cases hstat : e.stat with
    | none =>
      rw [walkLoop_step_none m e (rest ++ w2) st hstat,
        walkLoop_step_none m e rest st hstat, ih]
    | some q =>
      obtain ⟨sz, mt⟩ := q
      cases hlk : lookupD st.existing e.full_path with
      | some old =>
        by_cases hch : mt ≠ old.last_modified ∨ sz ≠ old.file_size
        · rw [walkLoop_step_updated m e (rest ++ w2) st sz mt old hstat hlk hch,
            walkLoop_step_updated m e rest st sz mt old hstat hlk hch, ih]
        · rw [walkLoop_step_unchanged m e (rest ++ w2) st sz mt old hstat hlk hch,
            walkLoop_step_unchanged m e rest st sz mt old hstat hlk hch, ih]
      | none =>
        rw [walkLoop_step_new m e (rest ++ w2) st sz mt hstat hlk,
          walkLoop_step_new m e rest st sz mt hstat hlk, ih]

theorem walkLoop_keysND (m : Chars) :
    ∀ (w : List WalkEntry) (st : LoopState), keysND st.existing →
      keysND (walkLoop m w st).existing := by
  intro w
  induction w with
  | nil => intro st h; exact h
  | cons e rest ih =>
    intro st h
    cases hstat : e.stat with
    | none =>
      rw [walkLoop_step_none m e rest st hstat]
      exact ih st h
    | some q =>
      obtain ⟨sz, mt⟩ := q
      cases hlk : lookupD st.existing e.full_path with
      | some old =>
        by_cases hch : mt ≠ old.last_modified ∨ sz ≠ old.file_size
        · rw [walkLoop_step_updated m e rest st sz mt old hstat hlk hch]
          exact ih _ (keysND_eraseKey e.full_path st.existing h)
        · rw [walkLoop_step_unchanged m e rest st sz mt old hstat hlk hch]
          exact ih _ (keysND_eraseKey e.full_path st.existing h)
      | none =>
        rw [walkLoop_step_new m e rest st sz mt hstat hlk]
        exact ih _ h

theorem walkLoop_frame (m p : Chars) :
    ∀ (w : List WalkEntry) (st : LoopState),
      (∀ e ∈ w, e.full_path = p → e.stat = none) →
      lookupD (walkLoop m w st).existing p = lookupD st.existing p ∧
      (walkLoop m w st).updated.filter (fun r => decide (r.full_path = p)) =
        st.updated.filter (fun r => decide (r.full_path = p)) ∧
      (walkLoop m w st).newFiles.filter (fun r => decide (r.full_path = p)) =
        st.newFiles.filter (fun r => decide (r.full_path = p)) := by
  intro w
  induction w with
  | nil => intro st _; exact ⟨rfl, rfl, rfl⟩
  | cons e rest ih =>
    intro st hfr
    have hfr2 : ∀ e2 ∈ rest, e2.full_path = p → e2.stat = none :=
      fun e2 he2 => hfr e2 (List.mem_cons_of_mem e he2)
    cases hstat : e.stat with
    | none =>
      rw [walkLoop_step_none m e rest st hstat]
      exact ih st hfr2
    | some q =>
      obtain ⟨sz, mt⟩ := q
      have hne : ¬ e.full_path = p := by
        intro hc
        rw [hfr e (List.mem_cons_self e rest) hc] at hstat
        exact absurd hstat (by simp)
      have hne2 : ¬ p = e.full_path := fun hc => hne hc.symm
      have hfilterone : ([(⟨e.file_key, e.full_path, m, sz, mt⟩ : FileRecord)].filter
          (fun r => decide (r.full_path = p))) = [] := by
        simp [hne]
      cases hlk : lookupD st.existing e.full_path with
      | some old =>
        by_cases hch : mt ≠ old.last_modified ∨ sz ≠ old.file_size
        · rw [walkLoop_step_updated m e rest st sz mt old hstat hlk hch]
          obtain ⟨ha, hb, hc⟩ := ih _ hfr2
          refine ⟨?_, ?_, hc⟩
          · rw [ha]
            exact lookup_eraseKey_ne e.full_path p hne2 st.existing
          · rw [hb]
            show (st.updated ++ [(⟨e.file_key, e.full_path, m, sz, mt⟩ : FileRecord)]).filter
                (fun r => decide (r.full_path = p)) = _
            rw [List.filter_append, hfilterone, List.append_nil]
        · rw [walkLoop_step_unchanged m e rest st sz mt old hstat hlk hch]
          obtain ⟨ha, hb, hc⟩ := ih _ hfr2
          refine ⟨?_, hb, hc⟩
          rw [ha]
          exact lookup_eraseKey_ne e.full_path p hne2 st.existing
      | none =>
        rw [walkLoop_step_new m e rest st sz mt hstat hlk]
        obtain ⟨ha, hb, hc⟩ := ih _ hfr2
        refine ⟨ha, hb, ?_⟩
        rw [hc]
        show (st.newFiles ++ [(⟨e.file_key, e.full_path, m, sz, mt⟩ : FileRecord)]).filter
            (fun r => decide (r.full_path = p)) = _
        rw [List.filter_append, hfilterone, List.append_nil]

theorem walkLoop_lookup_some (m : Chars) :
    ∀ (w : List WalkEntry) (st : LoopState) (p : Chars) (v : FileRecord),
      keysND st.existing →
      lookupD (walkLoop m w st).existing p = some v →
      lookupD st.existing p = some v := by
  intro w
  induction w with
  | nil => intro st p v _ h; exact h
  | cons e rest ih =>
    intro st p v hnd h
    cases hstat : e.stat with
    | none =>
      rw [walkLoop_step_none m e rest st hstat] at h
      exact ih st p v hnd h
    | some q =>
      obtain ⟨sz, mt⟩ := q
      have herase : ∀ st2 : LoopState, st2.existing = eraseKey st.existing e.full_path →
          lookupD (walkLoop m rest st2).existing p = some v →
          lookupD st.existing p = some v := by
        intro st2 hst2 h2
        have hnd2 : keysND st2.existing := by
          rw [hst2]
          exact keysND_eraseKey e.full_path st.existing hnd
        have h3 := ih st2 p v hnd2 h2
        rw [hst2] at h3
        by_cases hpe : p = e.full_path
        · rw [hpe] at h3
          rw [lookup_eraseKey_self e.full_path st.existing hnd] at h3
          exact absurd h3 (by simp)
        · rw [lookup_eraseKey_ne e.full_path p hpe st.existing] at h3
          exact h3
      cases hlk : lookupD st.existing e.full_path with
      | some old =>
        by_cases hch : mt ≠ old.last_modified ∨ sz ≠ old.file_size
        · rw [walkLoop_step_updated m e rest st sz mt old hstat hlk hch] at h
          exact herase _ rfl h
        · rw [walkLoop_step_unchanged m e rest st sz mt old hstat hlk hch] at h
          exact herase _ rfl h
      | none =>
        rw [walkLoop_step_new m e rest st sz mt hstat hlk] at h
        exact ih ⟨st.existing, st.updated,
          st.newFiles ++ [⟨e.file_key, e.full_path, m, sz, mt⟩]⟩ p v hnd h

theorem walkLoop_new_mem (m : Chars) :
    ∀ (w : List WalkEntry) (st : LoopState) (r : FileRecord),
      r ∈ (walkLoop m w st).newFiles →
      r ∈ st.newFiles ∨ ∃ e ∈ w, e.stat = some (r.file_size, r.last_modified) ∧
        e.full_path = r.full_path ∧ e.file_key = r.file_key ∧ r.mount_point = m := by
  intro w
  induction w with
  | nil => intro st r h; exact Or.inl h
  | cons e rest ih =>
    intro st r h
    have hlift : ∀ st2 : LoopState, st2.newFiles = st.newFiles ∨
        st2.newFiles = st.newFiles ++ [⟨e.file_key, e.full_path, m, r.file_size, r.last_modified⟩] →
        True := fun _ _ => trivial
    cases hstat : e.stat with
    | none =>
      rw [walkLoop_step_none m e rest st hstat] at h
      rcases ih st r h with hm | ⟨e2, he2, hrest⟩
      · exact Or.inl hm
      · exact Or.inr ⟨e2, List.mem_cons_of_mem e he2, hrest⟩
    | some q =>
      obtain ⟨sz, mt⟩ := q
      cases hlk : lookupD st.existing e.full_path with
      | some old =>
        by_cases hch : mt ≠ old.last_modified ∨ sz ≠ old.file_size
        · rw [walkLoop_step_updated m e rest st sz mt old hstat hlk hch] at h
          rcases ih _ r h with hm | ⟨e2, he2, hrest⟩
          · exact Or.inl hm
          · exact Or.inr ⟨e2, List.mem_cons_of_mem e he2, hrest⟩
        · rw [walkLoop_step_unchanged m e rest st sz mt old hstat hlk hch] at h
          rcases ih _ r h with hm | ⟨e2, he2, hrest⟩
          · exact Or.inl hm
          · exact Or.inr ⟨e2, List.mem_cons_of_mem e he2, hrest⟩
      | none =>
        rw [walkLoop_step_new m e rest st sz mt hstat hlk] at h
        rcases ih _ r h with hm | ⟨e2, he2, hrest⟩
        · rcases List.mem_append.mp hm with hm2 | hm2
          · exact Or.inl hm2
          · have hr : r = ⟨e.file_key, e.full_path, m, sz, mt⟩ := List.mem_singleton.mp hm2
            refine Or.inr ⟨e, List.mem_cons_self e rest, ?_, ?_, ?_, ?_⟩
            · rw [hr, hstat]
            · rw [hr]
            · rw [hr]
            · rw [hr]
        · exact Or.inr ⟨e2, List.mem_cons_of_mem e he2, hrest⟩

theorem deleteAll_eq_filter :
    ∀ (paths : List Chars) (cat : Catalog),
      deleteAll paths cat = cat.filter (fun r => decide (¬ r.full_path ∈ paths)) := by
  intro paths
  induction paths with
  | nil =>
    intro cat
    have hall : ∀ r ∈ cat, (decide (¬ r.full_path ∈ ([] : List Chars))) = true := by
      intro r _
      simp
    rw [List.filter_eq_self.mpr hall]
    rfl
  | cons p ps ih =>
    intro cat
    show deleteAll ps (deleteByPath p cat) = _
    rw [ih (deleteByPath p cat)]
    unfold deleteByPath
    rw [List.filter_filter]
    apply List.filter_congr
    intro r _
    by_cases h1 : r.full_path = p
    · have hmem : r.full_path ∈ p :: ps := by rw [h1]; exact List.mem_cons_self p ps
      simp [h1, hmem]
    · by_cases h2 : r.full_path ∈ ps
      · have hmem : r.full_path ∈ p :: ps := List.mem_cons_of_mem p h2
        simp [h1, h2, hmem]
      · have hmem : ¬ r.full_path ∈ p :: ps := by
          intro hc
          rcases List.mem_cons.mp hc with hc | hc
          · exact h1 hc
          · exact h2 hc
        simp [h1, h2, hmem]

theorem batchesFuel_join {α : Type} (b : Nat) (hb : ¬ b = 0) :
    ∀ (fuel : Nat) (files : List α), files.length ≤ fuel →
      (batchesFuel fuel files b).flatten = files := by
  intro fuel
  induction fuel with
  | zero =>
    intro files hlen
    cases files with
    | nil => rfl
    | cons f fs => simp at hlen
  | succ n ih =>
    intro files hlen
    cases files with
    | nil => rfl
    | cons f fs =>
      rw [batchesFuel, if_neg hb, List.flatten_cons]
      have hdrop : ((f :: fs).drop b).length ≤ n := by
        rw [List.length_drop]
        simp only [List.length_cons] at hlen ⊢
        omega
      rw [ih _ hdrop]
      exact List.take_append_drop b (f :: fs)

theorem chunks_join {α : Type} (b : Nat) (hb : ¬ b = 0) (files : List α) :
    (process_files_in_batches files b).flatten = files :=
  batchesFuel_join b hb files.length files (Nat.le_refl _)

theorem applyUpdateBatches_join :
    ∀ (bs : List (List FileRecord)) (cat : Catalog),
      applyUpdateBatches bs cat = (bs.flatten).foldl (fun c u => updateByPath u c) cat := by
  intro bs
  induction bs with
  | nil => intro cat; rfl
  | cons bt bs2 ih =>
    intro cat
    show applyUpdateBatches bs2 (bt.foldl (fun c2 u => updateByPath u c2) cat) = _
    rw [ih, List.flatten_cons, List.foldl_append]

theorem insertAll_append :
    ∀ (xs ys : List FileRecord) (cat : Catalog),
      insertAll (xs ++ ys) cat =
        match insertAll xs cat with
        | none => none
        | some c => insertAll ys c := by
  intro xs ys
  induction xs with
  | nil => intro cat; rfl
  | cons x xs2 ih =>
    intro cat
    rw [List.cons_append, insertAll, insertAll]
    cases insertNew x cat with
    | none => rfl
    | some c2 => exact ih c2

theorem applyInsertBatches_fold :
    ∀ (bs : List (List FileRecord)) (acc : Option Catalog),
      bs.foldl (fun acc bt =>
        match acc with
        | none => none
        | some c => insertAll bt c) acc =
      match acc with
      | none => none
      | some c => insertAll bs.flatten c := by
  intro bs
  induction bs with
  | nil =>
    intro acc
    cases acc with
    | none => rfl
    | some c => rfl
  | cons bt bs2 ih =>
    intro acc
    rw [List.foldl_cons]
    cases acc with
    | none =>
      rw [ih]
    | some c =>
      show bs2.foldl _ (insertAll bt c) = insertAll (bt ++ bs2.flatten) c
      rw [ih, insertAll_append]

theorem applyInsertBatches_join (bs : List (List FileRecord)) (cat : Catalog) :
    applyInsertBatches bs cat = insertAll bs.flatten cat := by
  unfold applyInsertBatches
  rw [applyInsertBatches_fold]

theorem insertAll_ok :
    ∀ (rs : List FileRecord) (cat cat2 : Catalog),
      insertAll rs cat = some cat2 → cat2 = cat ++ rs := by
  intro rs
  induction rs with
  | nil =>
    intro cat cat2 h
    rw [insertAll] at h
    injection h with h2
    rw [← h2, List.append_nil]
  | cons r rs2 ih =>
    intro cat cat2 h
    rw [insertAll] at h
    cases hnew : insertNew r cat with
    | none => rw [hnew] at h; exact absurd h (by simp)
    | some c2 =>
      rw [hnew] at h
      have hc2 : c2 = cat ++ [r] := by
        unfold insertNew at hnew
        by_cases hany : cat.any (fun x =>
            decide (x.file_key = r.file_key) && decide (x.full_path = r.full_path)) = true
        · rw [if_pos hany] at hnew
          exact absurd hnew (by simp)
        · rw [if_neg hany] at hnew
          injection hnew with h2
          exact h2.symm
      rw [ih c2 cat2 h, hc2, List.append_assoc, List.singleton_append]

/-- The cumulative effect on one catalog row of the update loop's
`UPDATE ... WHERE full_path` statements, applied in order. -/
def applyUps (ups : List FileRecord) (r : FileRecord) : FileRecord :=
  ups.foldl (fun r u => if r.full_path = u.full_path then
    { r with file_size := u.file_size, last_modified := u.last_modified } else r) r

theorem updateFlat_map :
    ∀ (ups : List FileRecord) (cat : Catalog),
      ups.foldl (fun c u => updateByPath u c) cat = cat.map (applyUps ups) := by
  intro ups
  induction ups with
  | nil =>
    intro cat
    show cat = cat.map (applyUps [])
    induction cat with
    | nil => rfl
    | cons r cs ihc =>
      rw [List.map_cons]
      show r :: cs = applyUps [] r :: cs.map (applyUps [])
      rw [← ihc]
      rfl
  | cons u us ih =>
    intro cat
    show us.foldl (fun c u => updateByPath u c) (updateByPath u cat) = cat.map (applyUps (u :: us))
    rw [ih (updateByPath u cat)]
    unfold updateByPath
    rw [List.map_map]
    rfl

theorem applyUps_fields :
    ∀ (ups : List FileRecord) (r : FileRecord),
      (applyUps ups r).full_path = r.full_path ∧
      (applyUps ups r).mount_point = r.mount_point ∧
      (applyUps ups r).file_key = r.file_key := by
  intro ups
  induction ups with
  | nil => intro r; exact ⟨rfl, rfl, rfl⟩
  | cons u us ih =>
    intro r
    show (applyUps us (if r.full_path = u.full_path then
        { r with file_size := u.file_size, last_modified := u.last_modified } else r)).full_path =
          r.full_path ∧
      (applyUps us (if r.full_path = u.full_path then
        { r with file_size := u.file_size, last_modified := u.last_modified } else r)).mount_point =
          r.mount_point ∧
      (applyUps us (if r.full_path = u.full_path then
        { r with file_size := u.file_size, last_modified := u.last_modified } else r)).file_key =
          r.file_key
    by_cases hp : r.full_path = u.full_path
    · rw [if_pos hp]
      exact ih { r with file_size := u.file_size, last_modified := u.last_modified }
    · rw [if_neg hp]
      exact ih r

theorem applyUps_no_match :
    ∀ (ups : List FileRecord) (r : FileRecord),
      (∀ u ∈ ups, ¬ r.full_path = u.full_path) → applyUps ups r = r := by
  intro ups
  induction ups with
  | nil => intro r _; rfl
  | cons u us ih =>
    intro r h
    show applyUps us (if r.full_path = u.full_path then
      { r with file_size := u.file_size, last_modified := u.last_modified } else r) = r
    rw [if_neg (h u (List.mem_cons_self u us))]
    exact ih r (fun u2 hu2 => h u2 (List.mem_cons_of_mem u hu2))

theorem applyUps_append (A B : List FileRecord) (r : FileRecord) :
    applyUps (A ++ B) r = applyUps B (applyUps A r) := by
  unfold applyUps
  rw [List.foldl_append]

theorem applyUps_single (A B : List FileRecord) (u : FileRecord) (r : FileRecord)
    (hA : ∀ x ∈ A, ¬ r.full_path = x.full_path)
    (hu : r.full_path = u.full_path)
    (hB : ∀ x ∈ B, ¬ r.full_path = x.full_path) :
    applyUps (A ++ u :: B) r =
      { r with file_size := u.file_size, last_modified := u.last_modified } := by
  rw [applyUps_append, applyUps_no_match A r hA]
  show applyUps B (if r.full_path = u.full_path then
    { r with file_size := u.file_size, last_modified := u.last_modified } else r) = _
  rw [if_pos hu]
  exact applyUps_no_match B _ hB

/-- The full paths of walk entries whose stat succeeds. -/
def okPaths (walk : List WalkEntry) : List Chars :=
  (walk.filter (fun e => e.stat.isSome)).map WalkEntry.full_path

/-- The row the update loop's dict lookup sees for `(m, p)`: the last row
of mount `m` with path `p` in catalog order. -/
def lastMountRow (cat : Catalog) (m p : Chars) : Option FileRecord :=
  ((cat.filter (fun r => decide (r.mount_point = m))).filter
    (fun r => decide (r.full_path = p))).getLast?

/-- The catalog's view of mount `m` agrees with the filesystem walk: every
mount-`m` row's path is stat-able in the walk, and every stat-able walk
entry has its latest mount-`m` row carrying exactly the walk's size and
mtime. -/
def synced (cat : Catalog) (m : Chars) (walk : List WalkEntry) : Prop :=
  (∀ r ∈ cat, r.mount_point = m → r.full_path ∈ okPaths walk) ∧
  (∀ e ∈ walk, ∀ sz mt, e.stat = some (sz, mt) →
    ∃ v, lastMountRow cat m e.full_path = some v ∧ v.file_size = sz ∧ v.last_modified = mt)

theorem snapshot_lookup (cat : Catalog) (m p : Chars) :
    lookupD (buildDict (cat.filter (fun r => decide (r.mount_point = m)))) p =
      lastMountRow cat m p := by
  rw [buildDict_lookup]
  rfl

def eraseList (ps : List Chars) (d : List (Chars × FileRecord)) : List (Chars × FileRecord) :=
  ps.foldl eraseKey d

theorem okPaths_cons_none (e : WalkEntry) (rest : List WalkEntry) (h : e.stat = none) :
    okPaths (e :: rest) = okPaths rest := by
  unfold okPaths
  rw [List.filter_cons]
  have : (e.stat.isSome) = false := by rw [h]; rfl
  rw [this]
  simp

theorem okPaths_cons_some (e : WalkEntry) (rest : List WalkEntry) (q : Nat × Int)
    (h : e.stat = some q) :
    okPaths (e :: rest) = e.full_path :: okPaths rest := by
  unfold okPaths
  rw [List.filter_cons]
  have h2 : (e.stat.isSome) = true := by rw [h]; rfl
  rw [h2]
  simp

theorem walkLoop_synced_run (m : Chars) :
    ∀ (w : List WalkEntry) (st : LoopState),
      (w.map WalkEntry.full_path).Nodup →
      (∀ e ∈ w, ∀ sz mt, e.stat = some (sz, mt) →
        ∃ v, lookupD st.existing e.full_path = some v ∧ v.file_size = sz ∧ v.last_modified = mt) →
      walkLoop m w st = ⟨eraseList (okPaths w) st.existing, st.updated, st.newFiles⟩ := by
  intro w
  induction w with
  | nil =>
    intro st _ _
    rfl
  | cons e rest ih =>
    intro st hnd hlk
    have hndrest : (rest.map WalkEntry.full_path).Nodup := by
      rw [List.map_cons] at hnd
      exact (List.nodup_cons.mp hnd).2
    have hnotin : e.full_path ∉ rest.map WalkEntry.full_path := by
      rw [List.map_cons] at hnd
      exact (List.nodup_cons.mp hnd).1
    cases hstat : e.stat with
    | none =>
      rw [walkLoop_step_none m e rest st hstat, okPaths_cons_none e rest hstat]
      exact ih st hndrest (fun e2 he2 => hlk e2 (List.mem_cons_of_mem e he2))
    | some q =>
      obtain ⟨sz, mt⟩ := q
      obtain ⟨v, hv, hvsz, hvmt⟩ := hlk e (List.mem_cons_self e rest) sz mt hstat
      have hch : ¬ (mt ≠ v.last_modified ∨ sz ≠ v.file_size) := by
        rw [hvsz, hvmt]
        simp
      rw [walkLoop_step_unchanged m e rest st sz mt v hstat hv hch,
        okPaths_cons_some e rest (sz, mt) hstat]
      have hstep := ih ⟨eraseKey st.existing e.full_path, st.updated, st.newFiles⟩ hndrest ?_
      · rw [hstep]
        rfl
      · intro e2 he2 sz2 mt2 hstat2
        obtain ⟨v2, hv2, h2sz, h2mt⟩ := hlk e2 (List.mem_cons_of_mem e he2) sz2 mt2 hstat2
        have hne : ¬ e2.full_path = e.full_path := by
          intro hc
          exact hnotin (hc ▸ List.mem_map_of_mem WalkEntry.full_path he2)
        refine ⟨v2, ?_, h2sz, h2mt⟩
        show lookupD (eraseKey st.existing e.full_path) e2.full_path = some v2
        rw [lookup_eraseKey_ne e.full_path e2.full_path hne st.existing]
        exact hv2

theorem eraseList_lookup :
    ∀ (S : List Chars) (d : List (Chars × FileRecord)), keysND d → ∀ p : Chars,
      lookupD (eraseList S d) p = if p ∈ S then none else lookupD d p := by
  intro S
  induction S with
  | nil =>
    intro d _ p
    rw [if_neg (List.not_mem_nil p)]
    rfl
  | cons s S2 ih =>
    intro d hnd p
    show lookupD (eraseList S2 (eraseKey d s)) p = _
    rw [ih (eraseKey d s) (keysND_eraseKey s d hnd) p]
    by_cases hp2 : p ∈ S2
    · rw [if_pos hp2, if_pos (List.mem_cons_of_mem s hp2)]
    · rw [if_neg hp2]
      by_cases hps : p = s
      · rw [hps, lookup_eraseKey_self s d hnd, if_pos (List.mem_cons_self s S2)]
      · rw [lookup_eraseKey_ne s p hps d, if_neg (by
          intro hc
          rcases List.mem_cons.mp hc with hc | hc
          · exact hps hc
          · exact hp2 hc)]

theorem assoc_nil_of_lookup_none (d : List (Chars × FileRecord))
    (h : ∀ p, lookupD d p = none) : d = [] := by
  cases d with
  | nil => rfl
  | cons kv rest =>
    obtain ⟨k, v⟩ := kv
    have := h k
    rw [lookupD, if_pos rfl] at this
    exact absurd this (by simp)

theorem lastMountRow_some_mem (cat : Catalog) (m p : Chars) (v : FileRecord)
    (h : lastMountRow cat m p = some v) :
    v ∈ cat ∧ v.mount_point = m ∧ v.full_path = p := by
  unfold lastMountRow at h
  have hmem := List.mem_of_getLast?_eq_some h
  have h1 := List.mem_filter.mp hmem
  have h2 := List.mem_filter.mp h1.1
  refine ⟨h2.1, by simpa using h2.2, by simpa using h1.2⟩

/-- Lemma I: an update over a catalog already synced with the walk is a
no-op: every walk entry takes the unchanged branch, the snapshot dict is
fully consumed, and the run reports zero counts and leaves the catalog
untouched. -/
theorem update_synced_noop (b : Nat) (m : Chars) (walk : List WalkEntry) (cat : Catalog)
    (hnd : (walk.map WalkEntry.full_path).Nodup) (hs : synced cat m walk) :
    update_mount_point b m walk cat =
      Except.ok ⟨cat, 0, 0, 0, [DbOp.deleteRemoved [], DbOp.commit]⟩ := by
  have hd0nd : keysND (buildDict (cat.filter (fun r => decide (r.mount_point = m)))) :=
    keysND_buildDict _
  have hGL : walkLoop m walk
      ⟨buildDict (cat.filter (fun r => decide (r.mount_point = m))), [], []⟩ =
      ⟨eraseList (okPaths walk)
        (buildDict (cat.filter (fun r => decide (r.mount_point = m)))), [], []⟩ := by
    apply walkLoop_synced_run m walk _ hnd
    intro e he sz mt hstat
    obtain ⟨v, hv, hvsz, hvmt⟩ := hs.2 e he sz mt hstat
    refine ⟨v, ?_, hvsz, hvmt⟩
    show lookupD (buildDict (cat.filter (fun r => decide (r.mount_point = m)))) e.full_path =
      some v
    rw [snapshot_lookup]
    exact hv
  have hempty : eraseList (okPaths walk)
      (buildDict (cat.filter (fun r => decide (r.mount_point = m)))) = [] := by
    apply assoc_nil_of_lookup_none
    intro p
    rw [eraseList_lookup (okPaths walk) _ hd0nd p]
    by_cases hp : p ∈ okPaths walk
    · rw [if_pos hp]
    · rw [if_neg hp]
      cases hlk : lookupD (buildDict (cat.filter (fun r => decide (r.mount_point = m)))) p with
      | none => rfl
      | some v =>
        exfalso
        rw [snapshot_lookup] at hlk
        obtain ⟨hvmem, hvm, hvp⟩ := lastMountRow_some_mem cat m p v hlk
        exact hp (hvp ▸ hs.1 v hvmem hvm)
  rw [hempty] at hGL
  show update_mount_point b m walk cat = _
  unfold update_mount_point
  rw [hGL]
  rfl

/-- The rows of mount `m` with path `p`, in catalog order. -/
def mmRows (cat : Catalog) (m p : Chars) : List FileRecord :=
  (cat.filter (fun r => decide (r.mount_point = m))).filter
    (fun r => decide (r.full_path = p))

theorem lastMountRow_eq_mmRows (cat : Catalog) (m p : Chars) :
    lastMountRow cat m p = (mmRows cat m p).getLast? := rfl

theorem mmRows_append (X Y : Catalog) (m p : Chars) :
    mmRows (X ++ Y) m p = mmRows X m p ++ mmRows Y m p := by
  unfold mmRows
  rw [List.filter_append, List.filter_append]

theorem mmRows_map (f : FileRecord → FileRecord)
    (hf : ∀ r, (f r).mount_point = r.mount_point ∧ (f r).full_path = r.full_path)
    (cat : Catalog) (m p : Chars) :
    mmRows (cat.map f) m p = (mmRows cat m p).map f := by
  unfold mmRows
  rw [List.filter_map, List.filter_map]
  have h1 : cat.filter ((fun r => decide (r.mount_point = m)) ∘ f) =
      cat.filter (fun r => decide (r.mount_point = m)) := by
    apply List.filter_congr
    intro r _
    show decide ((f r).mount_point = m) = decide (r.mount_point = m)
    rw [(hf r).1]
  rw [h1]
  congr 1
  apply List.filter_congr
  intro r _
  show decide ((f r).full_path = p) = decide (r.full_path = p)
  rw [(hf r).2]

theorem mmRows_filter_comm (q : FileRecord → Bool) (cat : Catalog) (m p : Chars) :
    mmRows (cat.filter q) m p = (mmRows cat m p).filter q := by
  unfold mmRows
  repeat rw [List.filter_filter]
  apply List.filter_congr
  intro r _
  cases hq : q r <;> cases hp : decide (r.full_path = p) <;>
    cases hm : decide (r.mount_point = m) <;> simp [hq, hp, hm]

theorem mmRows_mem (cat : Catalog) (m p : Chars) (r : FileRecord)
    (h : r ∈ mmRows cat m p) : r ∈ cat ∧ r.mount_point = m ∧ r.full_path = p := by
  unfold mmRows at h
  have h1 := List.mem_filter.mp h
  have h2 := List.mem_filter.mp h1.1
  exact ⟨h2.1, by simpa using h2.2, by simpa using h1.2⟩

theorem filter_singleton_decomp (P : FileRecord → Bool) :
    ∀ (l : List FileRecord) (x : FileRecord), l.filter P = [x] →
      ∃ A B, l = A ++ x :: B ∧ A.filter P = [] ∧ B.filter P = [] ∧ P x = true := by
  intro l
  induction l with
  | nil =>
    intro x h
    simp at h
  | cons y ys ih =>
    intro x h
    rw [List.filter_cons] at h
    by_cases hy : P y = true
    · rw [if_pos hy] at h
      have hx : y = x := by injection h with h1 h2
      have hys : ys.filter P = [] := by injection h with h1 h2
      subst hx
      exact ⟨[], ys, rfl, rfl, hys, hy⟩
    · rw [if_neg hy] at h
      obtain ⟨A, B, hl, hA, hB, hPx⟩ := ih x h
      refine ⟨y :: A, B, by rw [hl, List.cons_append], ?_, hB, hPx⟩
      rw [List.filter_cons, if_neg hy, hA]

/-- Decomposition of a successful run's catalog: the rows surviving the
delete phase, transformed by the update statements, followed by the
inserted new rows. -/
theorem update_catalog_decomp (b : Nat) (m : Chars) (walk : List WalkEntry)
    (cat : Catalog) (res : UpdateResult) (hb : ¬ b = 0)
    (h : update_mount_point b m walk cat = Except.ok res) :
    res.catalog =
      ((deleteAll
        ((walkLoop m walk
          ⟨buildDict (cat.filter (fun r => decide (r.mount_point = m))), [], []⟩).existing.map
            Prod.fst) cat).map
        (applyUps (walkLoop m walk
          ⟨buildDict (cat.filter (fun r => decide (r.mount_point = m))), [], []⟩).updated)) ++
      (walkLoop m walk
        ⟨buildDict (cat.filter (fun r => decide (r.mount_point = m))), [], []⟩).newFiles := by
  obtain ⟨hins, -, -, -, -⟩ := update_mount_point_ok_inv b m walk cat res h
  rw [applyInsertBatches_join, chunks_join b hb] at hins
  have hcat := insertAll_ok _ _ _ hins
  rw [hcat]
  congr 1
  rw [applyUpdateBatches_join, chunks_join b hb, updateFlat_map]

theorem mmRows_eq_comm (X : Catalog) (m p : Chars) :
    mmRows X m p = (X.filter (fun r => decide (r.full_path = p))).filter
      (fun r => decide (r.mount_point = m)) := by
  unfold mmRows
  repeat rw [List.filter_filter]
  apply List.filter_congr
  intro r _
  cases hp : decide (r.full_path = p) <;> cases hm : decide (r.mount_point = m) <;>
    simp [hp, hm]

theorem mmRows_path_nil (X : Catalog) (m p : Chars)
    (h : X.filter (fun r => decide (r.full_path = p)) = []) : mmRows X m p = [] := by
  rw [mmRows_eq_comm, h]
  rfl

theorem mem_mmRows_self (cat : Catalog) (m : Chars) (r : FileRecord)
    (hr : r ∈ cat) (hm : r.mount_point = m) : r ∈ mmRows cat m r.full_path := by
  unfold mmRows
  exact List.mem_filter.mpr ⟨List.mem_filter.mpr ⟨hr, by simpa using hm⟩, by simp⟩

theorem okPaths_of_entry (walk : List WalkEntry) (e : WalkEntry) (he : e ∈ walk)
    (hs : e.stat.isSome = true) : e.full_path ∈ okPaths walk := by
  unfold okPaths
  exact List.mem_map_of_mem WalkEntry.full_path (List.mem_filter.mpr ⟨he, hs⟩)

theorem nodup_split_paths (walk w1 w2 : List WalkEntry) (e : WalkEntry)
    (hsplit : walk = w1 ++ e :: w2)
    (hnd : (walk.map WalkEntry.full_path).Nodup) :
    (∀ x ∈ w1, ¬ x.full_path = e.full_path) ∧
    (∀ x ∈ w2, ¬ x.full_path = e.full_path) := by
  rw [hsplit, List.map_append, List.map_cons] at hnd
  obtain ⟨h1, h2, hdisj⟩ := List.nodup_append.mp hnd
  constructor
  · intro x hx hc
    exact hdisj (hc ▸ List.mem_map_of_mem WalkEntry.full_path hx)
      (List.mem_cons_self _ _)
  · intro x hx hc
    exact (List.nodup_cons.mp h2).1 (hc ▸ List.mem_map_of_mem WalkEntry.full_path hx)

/-- Lemma II: a successful `update_mount_point` run leaves the catalog
synced with the walk (assuming the walk lists each path once). -/
theorem update_establishes_synced (b : Nat) (m : Chars) (walk : List WalkEntry)
    (cat : Catalog) (res : UpdateResult) (hb : ¬ b = 0)
    (hnd : (walk.map WalkEntry.full_path).Nodup)
    (h : update_mount_point b m walk cat = Except.ok res) :
    synced res.catalog m walk := by
  have hdecomp := update_catalog_decomp b m walk cat res hb h
  set st0 : LoopState :=
    ⟨buildDict (cat.filter (fun r => decide (r.mount_point = m))), [], []⟩ with hst0
  set stF := walkLoop m walk st0 with hstF
  set rms := stF.existing.map Prod.fst with hrms
  set catD := deleteAll rms cat with hcatD
  have hd0nd : keysND st0.existing := keysND_buildDict _
  have hstFnd : keysND stF.existing := walkLoop_keysND m walk st0 hd0nd
  constructor
  · -- every mount-m row's path is an ok path of the walk
    intro r hr hrm
    rw [hdecomp] at hr
    rcases List.mem_append.mp hr with hr | hr
    · obtain ⟨r0, hr0, rfl⟩ := List.mem_map.mp hr
      obtain ⟨hfp, hfm, hfk⟩ := applyUps_fields stF.updated r0
      rw [hfp]
      have hr0m : r0.mount_point = m := by rw [← hfm]; exact hrm
      rw [hcatD, deleteAll_eq_filter] at hr0
      have hr0cat := (List.mem_filter.mp hr0).1
      have hr0notin : ¬ r0.full_path ∈ rms := by
        have := (List.mem_filter.mp hr0).2
        simpa using this
      -- the snapshot has a row for this path, and the final dict does not
      have hlk0 : ∃ v, lookupD st0.existing r0.full_path = some v := by
        show ∃ v, lookupD (buildDict (cat.filter (fun r => decide (r.mount_point = m))))
          r0.full_path = some v
        rw [snapshot_lookup, lastMountRow_eq_mmRows]
        cases hlast : (mmRows cat m r0.full_path).getLast? with
        | some v => exact ⟨v, rfl⟩
        | none =>
          rw [List.getLast?_eq_none_iff] at hlast
          have := mem_mmRows_self cat m r0 hr0cat hr0m
          rw [hlast] at this
          exact absurd this (List.not_mem_nil r0)
      have hlkF : lookupD stF.existing r0.full_path = none := by
        rw [lookupD_none_iff]
        exact hr0notin
      by_contra hno
      have hframe : ∀ e ∈ walk, e.full_path = r0.full_path → e.stat = none := by
        intro e he hpe
        cases hstat : e.stat with
        | none => rfl
        | some q =>
          exfalso
          apply hno
          rw [← hpe]
          exact okPaths_of_entry walk e he (by rw [hstat]; rfl)
      obtain ⟨v, hv⟩ := hlk0
      have := (walkLoop_frame m r0.full_path walk st0 hframe).1
      rw [← hstF] at this
      rw [this, hv] at hlkF
      exact absurd hlkF (by simp)
    · rcases walkLoop_new_mem m walk st0 r (by rw [← hstF]; exact hr) with hm0 | ⟨e, he, hestat, hep, _, _⟩
      · exact absurd hm0 (List.not_mem_nil r)
      · rw [← hep]
        exact okPaths_of_entry walk e he (by rw [hestat]; rfl)
  · -- every ok walk entry's latest mount-m row carries the walk's size/mtime
    intro e he sz mt hstat
    obtain ⟨w1, w2, hsplit⟩ := List.append_of_mem he
    obtain ⟨hw1, hw2⟩ := nodup_split_paths walk w1 w2 e hsplit hnd
    have hfr1 : ∀ x ∈ w1, x.full_path = e.full_path → x.stat = none :=
      fun x hx hc => absurd hc (hw1 x hx)
    have hfr2 : ∀ x ∈ w2, x.full_path = e.full_path → x.stat = none :=
      fun x hx hc => absurd hc (hw2 x hx)
    have hsplitF : stF = walkLoop m (e :: w2) (walkLoop m w1 st0) := by
      rw [hstF, hsplit, walkLoop_append]
    set st1 := walkLoop m w1 st0 with hst1
    have hfw1 := walkLoop_frame m e.full_path w1 st0 hfr1
    have hst1nd : keysND st1.existing := walkLoop_keysND m w1 st0 hd0nd
    have hlk1 : lookupD st1.existing e.full_path = lastMountRow cat m e.full_path := by
      rw [hst1, hfw1.1]
      exact snapshot_lookup cat m e.full_path
    have hupd1 : st1.updated.filter (fun r => decide (r.full_path = e.full_path)) = [] := by
      rw [hst1, hfw1.2.1]
      rfl
    have hnew1 : st1.newFiles.filter (fun r => decide (r.full_path = e.full_path)) = [] := by
      rw [hst1, hfw1.2.2]
      rfl
    cases hrow : lastMountRow cat m e.full_path with
    | some old =>
      have hlke : lookupD st1.existing e.full_path = some old := by rw [hlk1, hrow]
      by_cases hch : mt ≠ old.last_modified ∨ sz ≠ old.file_size
      · -- changed: the row is updated in place
        have hstep := walkLoop_step_updated m e w2 st1 sz mt old hstat hlke hch
        have hF : stF = walkLoop m w2 ⟨eraseKey st1.existing e.full_path,
            st1.updated ++ [⟨e.file_key, e.full_path, m, sz, mt⟩], st1.newFiles⟩ := by
          rw [hsplitF, hstep]
        have hfw2 := walkLoop_frame m e.full_path w2 ⟨eraseKey st1.existing e.full_path,
            st1.updated ++ [⟨e.file_key, e.full_path, m, sz, mt⟩], st1.newFiles⟩ hfr2
        have hlkF : lookupD stF.existing e.full_path = none := by
          rw [hF, hfw2.1]
          exact lookup_eraseKey_self e.full_path st1.existing hst1nd
        have hnotin : ¬ e.full_path ∈ rms := by
          rw [hrms, ← lookupD_none_iff]
          exact hlkF
        have hupdF : stF.updated.filter (fun r => decide (r.full_path = e.full_path)) =
            [⟨e.file_key, e.full_path, m, sz, mt⟩] := by
          rw [hF, hfw2.2.1]
          show (st1.updated ++ [(⟨e.file_key, e.full_path, m, sz, mt⟩ : FileRecord)]).filter
            (fun r => decide (r.full_path = e.full_path)) = _
          rw [List.filter_append, hupd1, List.nil_append]
          simp
        have hnewF : stF.newFiles.filter (fun r => decide (r.full_path = e.full_path)) = [] := by
          rw [hF, hfw2.2.2]
          exact hnew1
        -- now compute the final rows at this path
        have hrowsD : mmRows catD m e.full_path = mmRows cat m e.full_path := by
          rw [hcatD, deleteAll_eq_filter, mmRows_filter_comm]
          apply List.filter_eq_self.mpr
          intro r hr
          have hrp := (mmRows_mem cat m e.full_path r hr).2.2
          simpa [hrp] using hnotin
        have hrowsNew : mmRows stF.newFiles m e.full_path = [] :=
          mmRows_path_nil _ _ _ hnewF
        obtain ⟨A, B, hAB, hA, hB, _⟩ := filter_singleton_decomp _ stF.updated _ hupdF
        have holdp : old.full_path = e.full_path :=
          (lastMountRow_some_mem cat m e.full_path old hrow).2.2
        have happly : applyUps stF.updated old =
            { old with file_size := sz, last_modified := mt } := by
          rw [hAB]
          apply applyUps_single
          · intro x hx hc
            have : x ∈ A.filter (fun r => decide (r.full_path = e.full_path)) :=
              List.mem_filter.mpr ⟨hx, by rw [← hc, ← holdp]; simp⟩
            rw [hA] at this
            exact absurd this (List.not_mem_nil x)
          · rw [holdp]
          · intro x hx hc
            have : x ∈ B.filter (fun r => decide (r.full_path = e.full_path)) :=
              List.mem_filter.mpr ⟨hx, by rw [← hc, ← holdp]; simp⟩
            rw [hB] at this
            exact absurd this (List.not_mem_nil x)
        refine ⟨{ old with file_size := sz, last_modified := mt }, ?_, rfl, rfl⟩
        rw [lastMountRow_eq_mmRows, hdecomp, mmRows_append, hrowsNew, List.append_nil]
        rw [mmRows_map (applyUps stF.updated)
          (fun r => ⟨(applyUps_fields stF.updated r).2.1, (applyUps_fields stF.updated r).1⟩)]
        rw [hrowsD, List.getLast?_map, ← lastMountRow_eq_mmRows, hrow]
        rw [Option.map_some', happly]
      · -- unchanged: the old row already matches
        have hstep := walkLoop_step_unchanged m e w2 st1 sz mt old hstat hlke hch
        have heq : mt = old.last_modified ∧ sz = old.file_size := by
          by_cases h1 : mt = old.last_modified
          · by_cases h2 : sz = old.file_size
            · exact ⟨h1, h2⟩
            · exact absurd (Or.inr h2) hch
          · exact absurd (Or.inl h1) hch
        have hF : stF = walkLoop m w2 ⟨eraseKey st1.existing e.full_path,
            st1.updated, st1.newFiles⟩ := by
          rw [hsplitF, hstep]
        have hfw2 := walkLoop_frame m e.full_path w2 ⟨eraseKey st1.existing e.full_path,
            st1.updated, st1.newFiles⟩ hfr2
        have hlkF : lookupD stF.existing e.full_path = none := by
          rw [hF, hfw2.1]
          exact lookup_eraseKey_self e.full_path st1.existing hst1nd
        have hnotin : ¬ e.full_path ∈ rms := by
          rw [hrms, ← lookupD_none_iff]
          exact hlkF
        have hupdF : stF.updated.filter (fun r => decide (r.full_path = e.full_path)) = [] := by
          rw [hF, hfw2.2.1]
          exact hupd1
        have hnewF : stF.newFiles.filter (fun r => decide (r.full_path = e.full_path)) = [] := by
          rw [hF, hfw2.2.2]
          exact hnew1
        have hrowsD : mmRows catD m e.full_path = mmRows cat m e.full_path := by
          rw [hcatD, deleteAll_eq_filter, mmRows_filter_comm]
          apply List.filter_eq_self.mpr
          intro r hr
          have hrp := (mmRows_mem cat m e.full_path r hr).2.2
          simpa [hrp] using hnotin
        have hrowsNew : mmRows stF.newFiles m e.full_path = [] :=
          mmRows_path_nil _ _ _ hnewF
        have hfix : (mmRows catD m e.full_path).map (applyUps stF.updated) =
            mmRows catD m e.full_path := by
          have hcongr : ∀ r ∈ mmRows catD m e.full_path, applyUps stF.updated r = r := by
            intro r hr
            apply applyUps_no_match
            intro u hu hc
            have hrp := (mmRows_mem catD m e.full_path r hr).2.2
            have : u ∈ stF.updated.filter (fun r2 => decide (r2.full_path = e.full_path)) :=
              List.mem_filter.mpr ⟨hu, by rw [← hc, hrp]; simp⟩
            rw [hupdF] at this
            exact absurd this (List.not_mem_nil u)
          calc (mmRows catD m e.full_path).map (applyUps stF.updated)
              = (mmRows catD m e.full_path).map (fun r => r) :=
                List.map_congr_left (fun r hr => hcongr r hr)
            _ = mmRows catD m e.full_path := by
                rw [show (fun r : FileRecord => r) = id from rfl, List.map_id]
        refine ⟨old, ?_, heq.2.symm, heq.1.symm⟩
        rw [lastMountRow_eq_mmRows, hdecomp, mmRows_append, hrowsNew, List.append_nil]
        rw [mmRows_map (applyUps stF.updated)
          (fun r => ⟨(applyUps_fields stF.updated r).2.1, (applyUps_fields stF.updated r).1⟩)]
        rw [hfix, hrowsD, ← lastMountRow_eq_mmRows, hrow]
    | none =>
      -- new file: the inserted row is the only mount-m row at this path
      have hlke : lookupD st1.existing e.full_path = none := by rw [hlk1, hrow]
      have hstep := walkLoop_step_new m e w2 st1 sz mt hstat hlke
      have hF : stF = walkLoop m w2 ⟨st1.existing, st1.updated,
          st1.newFiles ++ [⟨e.file_key, e.full_path, m, sz, mt⟩]⟩ := by
        rw [hsplitF, hstep]
      have hfw2 := walkLoop_frame m e.full_path w2 ⟨st1.existing, st1.updated,
          st1.newFiles ++ [⟨e.file_key, e.full_path, m, sz, mt⟩]⟩ hfr2
      have hnewF : stF.newFiles.filter (fun r => decide (r.full_path = e.full_path)) =
          [⟨e.file_key, e.full_path, m, sz, mt⟩] := by
        rw [hF, hfw2.2.2]
        show (st1.newFiles ++ [(⟨e.file_key, e.full_path, m, sz, mt⟩ : FileRecord)]).filter
          (fun r => decide (r.full_path = e.full_path)) = _
        rw [List.filter_append, hnew1, List.nil_append]
        simp
      have hrowsCat : mmRows cat m e.full_path = [] := by
        rw [lastMountRow_eq_mmRows] at hrow
        exact List.getLast?_eq_none_iff.mp hrow
      have hrowsD : mmRows catD m e.full_path = [] := by
        rw [hcatD, deleteAll_eq_filter, mmRows_filter_comm, hrowsCat]
        rfl
      have hrowsNew : mmRows stF.newFiles m e.full_path =
          [⟨e.file_key, e.full_path, m, sz, mt⟩] := by
        rw [mmRows_eq_comm, hnewF]
        simp
      refine ⟨⟨e.file_key, e.full_path, m, sz, mt⟩, ?_, rfl, rfl⟩
      rw [lastMountRow_eq_mmRows, hdecomp, mmRows_append, hrowsNew]
      rw [mmRows_map (applyUps stF.updated)
        (fun r => ⟨(applyUps_fields stF.updated r).2.1, (applyUps_fields stF.updated r).1⟩)]
      rw [hrowsD]
      rfl

/-- C3: running update(mount) twice in succession with no filesystem change
(same walk, each path listed once, nonzero batch size) makes the second run a
no-op: it returns zero updated, zero added and zero removed counts and leaves
the catalog produced by the first run unchanged. -/
theorem C3_update_idempotent (b : Nat) (m : Chars) (walk : List WalkEntry)
    (cat : Catalog) (res : UpdateResult) (hb : ¬ b = 0)
    (hnd : (walk.map WalkEntry.full_path).Nodup)
    (h : update_mount_point b m walk cat = Except.ok res) :
    update_mount_point b m walk res.catalog =
      Except.ok ⟨res.catalog, 0, 0, 0, [DbOp.deleteRemoved [], DbOp.commit]⟩ :=
  update_synced_noop b m walk res.catalog hnd
    (update_establishes_synced b m walk cat res hb hnd h)

theorem C3_update_idempotent_witness :
    ∃ res : UpdateResult,
      update_mount_point 2 (pstr "/m")
        [⟨pstr "/m/a", pstr "a", some (1, 0)⟩, ⟨pstr "/m/b", pstr "b", some (2, 5)⟩]
        [⟨pstr "a", pstr "/m/a", pstr "/m", 9, 9⟩] = Except.ok res ∧
      update_mount_point 2 (pstr "/m")
        [⟨pstr "/m/a", pstr "a", some (1, 0)⟩, ⟨pstr "/m/b", pstr "b", some (2, 5)⟩]
        res.catalog =
        Except.ok ⟨res.catalog, 0, 0, 0, [DbOp.deleteRemoved [], DbOp.commit]⟩ := by
  obtain ⟨res, hres⟩ : ∃ res,
      update_mount_point 2 (pstr "/m")
        [⟨pstr "/m/a", pstr "a", some (1, 0)⟩, ⟨pstr "/m/b", pstr "b", some (2, 5)⟩]
        [⟨pstr "a", pstr "/m/a", pstr "/m", 9, 9⟩] = Except.ok res := ⟨_, rfl⟩
  exact ⟨res, hres,
    C3_update_idempotent 2 (pstr "/m")
      [⟨pstr "/m/a", pstr "a", some (1, 0)⟩, ⟨pstr "/m/b", pstr "b", some (2, 5)⟩]
      [⟨pstr "a", pstr "/m/a", pstr "/m", 9, 9⟩] res (by decide) (by decide) hres⟩

theorem okPaths_append (A B : List WalkEntry) :
    okPaths (A ++ B) = okPaths A ++ okPaths B := by
  unfold okPaths
  rw [List.filter_append, List.map_append]

theorem keysND_eraseList :
    ∀ (S : List Chars) (d : List (Chars × FileRecord)), keysND d → keysND (eraseList S d) := by
  intro S
  induction S with
  | nil => intro d hd; exact hd
  | cons s S2 ih =>
    intro d hd
    show keysND (eraseList S2 (eraseKey d s))
    exact ih (eraseKey d s) (keysND_eraseKey s d hd)

theorem assoc_singleton_of_lookup (d : List (Chars × FileRecord)) (pd : Chars) (v : FileRecord)
    (hnd : keysND d) (hv : lookupD d pd = some v)
    (hothers : ∀ q, ¬ q = pd → lookupD d q = none) : d = [(pd, v)] := by
  cases d with
  | nil =>
    rw [show lookupD [] pd = none from rfl] at hv
    exact absurd hv (by simp)
  | cons kv rest =>
    obtain ⟨k, w⟩ := kv
    have hk : k = pd := by
      by_contra hne
      have hq := hothers k hne
      rw [lookupD, if_pos rfl] at hq
      exact absurd hq (by simp)
    subst hk
    rw [lookupD, if_pos rfl] at hv
    have hw : w = v := by injection hv
    subst hw
    have hnotin : k ∉ rest.map Prod.fst := by
      have : ((k, w) :: rest).map Prod.fst = k :: rest.map Prod.fst := rfl
      unfold keysND at hnd
      rw [this] at hnd
      exact (List.nodup_cons.mp hnd).1
    have hrest : rest = [] := by
      apply assoc_nil_of_lookup_none
      intro q
      by_cases hq : q = k
      · subst hq
        exact (lookupD_none_iff q rest).mpr hnotin
      · have := hothers q hq
        rw [lookupD, if_neg (fun hc => hq hc.symm)] at this
        exact this
    rw [hrest]

/-- C8 counterexample: the delete phase matches rows by `full_path` alone,
so when a nested mount shares a `full_path` with its parent mount, updating
the inner mount after its file disappeared also deletes the parent mount's
row.  Here the catalog holds one row of mount `/data` and one of mount
`/data/m1`, both with full_path `/data/m1/f`; updating `/data/m1` against
an empty walk removes BOTH rows, leaving an empty catalog instead of
preserving the `/data` row. -/
theorem C8_other_mount_row_deleted_counterexample :
    update_mount_point 10 (pstr "/data/m1") []
      [⟨pstr "m1/f", pstr "/data/m1/f", pstr "/data", 7, 7⟩,
       ⟨pstr "f", pstr "/data/m1/f", pstr "/data/m1", 1, 0⟩] =
    Except.ok ⟨[], 0, 0, 1,
      [DbOp.deleteRemoved [pstr "/data/m1/f"], DbOp.commit]⟩ := by
  rfl

/-- C8 (amended): if the catalog is synced with a walk listing each path
once and then exactly one stat-able file `e` of mount `m` disappears,
`update(m)` succeeds reporting 0 updated, 0 added and 1 removed, issues a
single-path delete, and the resulting catalog drops exactly the rows whose
`full_path` equals the deleted file's path — across ALL mounts, not only
mount `m` — leaving every other row unchanged. -/
theorem C8_update_after_one_delete (b : Nat) (m : Chars) (w1 w2 : List WalkEntry)
    (e : WalkEntry) (sz : Nat) (mt : Int) (cat : Catalog)
    (hstat : e.stat = some (sz, mt))
    (hnd : ((w1 ++ e :: w2).map WalkEntry.full_path).Nodup)
    (hs : synced cat m (w1 ++ e :: w2)) :
    update_mount_point b m (w1 ++ w2) cat =
      Except.ok ⟨cat.filter (fun r => decide (¬ r.full_path = e.full_path)), 0, 0, 1,
        [DbOp.deleteRemoved [e.full_path], DbOp.commit]⟩ := by
  have hd0nd : keysND (buildDict (cat.filter (fun r => decide (r.mount_point = m)))) :=
    keysND_buildDict _
  obtain ⟨hw1, hw2⟩ := nodup_split_paths (w1 ++ e :: w2) w1 w2 e rfl hnd
  have hndw : ((w1 ++ w2).map WalkEntry.full_path).Nodup := by
    rw [List.map_append] at hnd ⊢
    rw [List.map_cons] at hnd
    obtain ⟨h1, h2, hdisj⟩ := List.nodup_append.mp hnd
    refine List.nodup_append.mpr ⟨h1, (List.nodup_cons.mp h2).2, ?_⟩
    intro a ha hb
    exact hdisj ha (List.mem_cons_of_mem _ hb)
  have he_mem : e ∈ w1 ++ e :: w2 :=
    List.mem_append.mpr (Or.inr (List.mem_cons_self e w2))
  have hGL : walkLoop m (w1 ++ w2)
      ⟨buildDict (cat.filter (fun r => decide (r.mount_point = m))), [], []⟩ =
      ⟨eraseList (okPaths (w1 ++ w2))
        (buildDict (cat.filter (fun r => decide (r.mount_point = m)))), [], []⟩ := by
    apply walkLoop_synced_run m (w1 ++ w2) _ hndw
    intro x hx sx mx hsx
    have hxw : x ∈ w1 ++ e :: w2 := by
      rcases List.mem_append.mp hx with h | h
      · exact List.mem_append.mpr (Or.inl h)
      · exact List.mem_append.mpr (Or.inr (List.mem_cons_of_mem e h))
    obtain ⟨v2, hv2, h2sz, h2mt⟩ := hs.2 x hxw sx mx hsx
    refine ⟨v2, ?_, h2sz, h2mt⟩
    show lookupD (buildDict (cat.filter (fun r => decide (r.mount_point = m)))) x.full_path =
      some v2
    rw [snapshot_lookup]
    exact hv2
  obtain ⟨v, hv, _, _⟩ := hs.2 e he_mem sz mt hstat
  have he_nok : e.full_path ∉ okPaths (w1 ++ w2) := by
    intro hc
    unfold okPaths at hc
    obtain ⟨x, hx, hxp⟩ := List.mem_map.mp hc
    have hxm := (List.mem_filter.mp hx).1
    rcases List.mem_append.mp hxm with h | h
    · exact hw1 x h hxp
    · exact hw2 x h hxp
  have hL : eraseList (okPaths (w1 ++ w2))
      (buildDict (cat.filter (fun r => decide (r.mount_point = m)))) =
      [(e.full_path, v)] := by
    apply assoc_singleton_of_lookup _ _ _
      (keysND_eraseList (okPaths (w1 ++ w2)) _ hd0nd)
    · rw [eraseList_lookup (okPaths (w1 ++ w2)) _ hd0nd, if_neg he_nok, snapshot_lookup]
      exact hv
    · intro q hq
      rw [eraseList_lookup (okPaths (w1 ++ w2)) _ hd0nd]
      by_cases hqok : q ∈ okPaths (w1 ++ w2)
      · rw [if_pos hqok]
      · rw [if_neg hqok, snapshot_lookup]
        cases hlk : lastMountRow cat m q with
        | none => rfl
        | some u =>
          exfalso
          obtain ⟨hu, hum, hup⟩ := lastMountRow_some_mem cat m q u hlk
          have hq0 : q ∈ okPaths (w1 ++ e :: w2) := hup ▸ hs.1 u hu hum
          rw [okPaths_append, okPaths_cons_some e w2 (sz, mt) hstat] at hq0
          rcases List.mem_append.mp hq0 with h | h
          · exact hqok (by rw [okPaths_append]; exact List.mem_append.mpr (Or.inl h))
          · rcases List.mem_cons.mp h with h | h
            · exact hq h
            · exact hqok (by rw [okPaths_append]; exact List.mem_append.mpr (Or.inr h))
  unfold update_mount_point
  rw [hGL, hL]
  rfl

theorem C8_update_after_one_delete_witness :
    update_mount_point 5 (pstr "/data/m1") []
      [⟨pstr "m1/f", pstr "/data/m1/f", pstr "/data", 7, 7⟩,
       ⟨pstr "f", pstr "/data/m1/f", pstr "/data/m1", 1, 0⟩] =
      Except.ok ⟨[⟨pstr "m1/f", pstr "/data/m1/f", pstr "/data", 7, 7⟩,
          ⟨pstr "f", pstr "/data/m1/f", pstr "/data/m1", 1, 0⟩].filter
            (fun r => decide (¬ r.full_path =
              (⟨pstr "/data/m1/f", pstr "f", some (1, 0)⟩ : WalkEntry).full_path)),
        0, 0, 1, [DbOp.deleteRemoved [pstr "/data/m1/f"], DbOp.commit]⟩ := by
  apply C8_update_after_one_delete 5 (pstr "/data/m1") [] []
    ⟨pstr "/data/m1/f", pstr "f", some (1, 0)⟩ 1 0
    [⟨pstr "m1/f", pstr "/data/m1/f", pstr "/data", 7, 7⟩,
     ⟨pstr "f", pstr "/data/m1/f", pstr "/data/m1", 1, 0⟩]
    rfl (by decide)
  constructor
  · decide
  · intro e2 he2 sz mt hst
    have he : e2 = ⟨pstr "/data/m1/f", pstr "f", some (1, 0)⟩ := by
      simpa using he2
    subst he
    have hst2 : some ((1 : Nat), (0 : Int)) = some (sz, mt) := hst
    have hp : ((1 : Nat), (0 : Int)) = (sz, mt) := by injection hst2
    have hsz : (1 : Nat) = sz := by injection hp
    have hmt : (0 : Int) = mt := by injection hp
    subst hsz
    subst hmt
    exact ⟨⟨pstr "f", pstr "/data/m1/f", pstr "/data/m1", 1, 0⟩, rfl, rfl, rfl⟩

/-- `INSERT OR REPLACE` under `UNIQUE(file_key, full_path)`: SQLite deletes
any conflicting row and appends the new one. -/
def upsert (r : FileRecord) (cat : Catalog) : Catalog :=
  cat.filter (fun x =>
    !(decide (x.file_key = r.file_key) && decide (x.full_path = r.full_path))) ++ [r]

/-- The table effect of `add_mount_points` for one scanned mount: the
scan's rows are upserted in order (the batch boundaries and per-batch
commits do not change the final table contents). -/
def scanAddRows (rows : List FileRecord) (cat : Catalog) : Catalog :=
  rows.foldl (fun c r => upsert r c) cat

/-- One catalog-mutating operation of the tool: a scan-and-add of a mount,
an update of a mount, or a mount removal. -/
inductive CatOp where
  | scanAdd (rows : List FileRecord)
  | updateOp (b : Nat) (m : Chars) (walk : List WalkEntry)
  | removeOp (m : Chars)

/-- Apply one operation to the table; an update aborted by an
`IntegrityError` was never committed, so the table is unchanged. -/
def applyCatOp (cat : Catalog) : CatOp → Catalog
  | CatOp.scanAdd rows => scanAddRows rows cat
  | CatOp.updateOp b m walk =>
    match update_mount_point b m walk cat with
    | Except.ok res => res.catalog
    | Except.error _ => cat
  | CatOp.removeOp m => ( remove_mount_point m cat).2

def applyCatOps (cat : Catalog) (ops : List CatOp) : Catalog :=
  ops.foldl applyCatOp cat

/-- The `UNIQUE(file_key, full_path)` invariant: no two rows share the
`(file_key, full_path)` pair. -/
def uniqueKeys (cat : Catalog) : Prop :=
  cat.Pairwise (fun a b => ¬ (a.file_key = b.file_key ∧ a.full_path = b.full_path))

instance uniqueKeysDecidable (cat : Catalog) : Decidable (uniqueKeys cat) :=
  inferInstanceAs (Decidable (cat.Pairwise
    (fun a b : FileRecord => ¬ (a.file_key = b.file_key ∧ a.full_path = b.full_path))))

theorem uniqueKeys_upsert (r : FileRecord) (cat : Catalog) (h : uniqueKeys cat) :
    uniqueKeys (upsert r cat) := by
  unfold upsert uniqueKeys
  rw [List.pairwise_append]
  refine ⟨List.Pairwise.sublist (List.filter_sublist cat) h,
    List.pairwise_singleton _ _, ?_⟩
  intro a ha b hb hc
  have hb2 : b = r := List.mem_singleton.mp hb
  subst hb2
  have hpass := (List.mem_filter.mp ha).2
  rw [hc.1, hc.2] at hpass
  simp at hpass

theorem uniqueKeys_scanAddRows (rows : List FileRecord) :
    ∀ cat : Catalog, uniqueKeys cat → uniqueKeys (scanAddRows rows cat) := by
  induction rows with
  | nil => intro cat h; exact h
  | cons r rs ih =>
    intro cat h
    show uniqueKeys (scanAddRows rs (upsert r cat))
    exact ih (upsert r cat) (uniqueKeys_upsert r cat h)

theorem uniqueKeys_map_preserve (f : FileRecord → FileRecord)
    (hf : ∀ r, (f r).file_key = r.file_key ∧ (f r).full_path = r.full_path)
    (cat : Catalog) (h : uniqueKeys cat) : uniqueKeys (cat.map f) := by
  unfold uniqueKeys at h ⊢
  rw [List.pairwise_map]
  refine List.Pairwise.imp ?_ h
  intro a b hab hc
  exact hab ⟨((hf a).1.symm.trans hc.1).trans (hf b).1,
    ((hf a).2.symm.trans hc.2).trans (hf b).2⟩

theorem uniqueKeys_deleteAll (ps : List Chars) (cat : Catalog) (h : uniqueKeys cat) :
    uniqueKeys (deleteAll ps cat) := by
  rw [deleteAll_eq_filter]
  exact List.Pairwise.sublist (List.filter_sublist cat) h

theorem uniqueKeys_insertAll :
    ∀ (rs : List FileRecord) (cat cat2 : Catalog),
      insertAll rs cat = some cat2 → uniqueKeys cat → uniqueKeys cat2 := by
  intro rs
  induction rs with
  | nil =>
    intro cat cat2 h hu
    rw [insertAll] at h
    injection h with h2
    rw [← h2]
    exact hu
  | cons r rs2 ih =>
    intro cat cat2 h hu
    rw [insertAll] at h
    cases hnew : insertNew r cat with
    | none =>
      rw [hnew] at h
      exact absurd h (by simp)
    | some catm =>
      rw [hnew] at h
      apply ih catm cat2 h
      unfold insertNew at hnew
      by_cases hany : cat.any (fun x =>
          decide (x.file_key = r.file_key) && decide (x.full_path = r.full_path)) = true
      · rw [if_pos hany] at hnew
        exact absurd hnew (by simp)
      · rw [if_neg hany] at hnew
        injection hnew with h3
        rw [← h3]
        unfold uniqueKeys
        rw [List.pairwise_append]
        refine ⟨hu, List.pairwise_singleton _ _, ?_⟩
        intro a ha b hb hc
        have hb2 : b = r := List.mem_singleton.mp hb
        subst hb2
        apply hany
        rw [List.any_eq_true]
        exact ⟨a, ha, by rw [hc.1, hc.2]; simp⟩

theorem uniqueKeys_update (b : Nat) (m : Chars) (walk : List WalkEntry)
    (cat : Catalog) (res : UpdateResult)
    (h : update_mount_point b m walk cat = Except.ok res) (hu : uniqueKeys cat) :
    uniqueKeys res.catalog := by
  obtain ⟨hins, _, _, _, _⟩ := update_mount_point_ok_inv b m walk cat res h
  rw [applyInsertBatches_join] at hins
  apply uniqueKeys_insertAll _ _ _ hins
  rw [applyUpdateBatches_join, updateFlat_map]
  apply uniqueKeys_map_preserve
  · intro r
    exact ⟨(applyUps_fields _ r).2.2, (applyUps_fields _ r).1⟩
  · exact uniqueKeys_deleteAll _ _ hu

theorem uniqueKeys_remove (m : Chars) (cat : Catalog) (hu : uniqueKeys cat) :
    uniqueKeys ( remove_mount_point m cat).2 := by
  simp only [ remove_mount_point]
  split
  · exact List.Pairwise.sublist (List.filter_sublist cat) hu
  · exact hu

/-- C7: after any sequence of scan (INSERT OR REPLACE), update, and remove
operations applied to a catalog with no duplicated `(file_key, full_path)`
pair, the catalog still contains at most one row per pair: re-scanning the
same absolute path replaces its existing row rather than adding a second
one. -/
theorem C7_unique_key_invariant (ops : List CatOp) (cat : Catalog)
    (h : uniqueKeys cat) : uniqueKeys (applyCatOps cat ops) := by
  induction ops generalizing cat with
  | nil => exact h
  | cons op ops2 ih =>
    show uniqueKeys (applyCatOps (applyCatOp cat op) ops2)
    apply ih
    cases op with
    | scanAdd rows => exact uniqueKeys_scanAddRows rows cat h
    | updateOp b m walk =>
      show uniqueKeys (match update_mount_point b m walk cat with
        | Except.ok res => res.catalog
        | Except.error _ => cat)
      cases hup : update_mount_point b m walk cat with
      | ok res => exact uniqueKeys_update b m walk cat res hup h
      | error e => exact h
    | removeOp m => exact uniqueKeys_remove m cat h

theorem C7_unique_key_invariant_witness :
    uniqueKeys (applyCatOps []
      [CatOp.scanAdd [⟨pstr "a", pstr "/m/a", pstr "/m", 1, 0⟩,
                      ⟨pstr "a", pstr "/m/a", pstr "/m", 2, 5⟩],
       CatOp.updateOp 2 (pstr "/m")
         [⟨pstr "/m/a", pstr "a", some (3, 7)⟩, ⟨pstr "/m/b", pstr "b", some (1, 1)⟩],
       CatOp.removeOp (pstr "/m2")]) :=
  C7_unique_key_invariant
    [CatOp.scanAdd [⟨pstr "a", pstr "/m/a", pstr "/m", 1, 0⟩,
                    ⟨pstr "a", pstr "/m/a", pstr "/m", 2, 5⟩],
     CatOp.updateOp 2 (pstr "/m")
       [⟨pstr "/m/a", pstr "a", some (3, 7)⟩, ⟨pstr "/m/b", pstr "b", some (1, 1)⟩],
     CatOp.removeOp (pstr "/m2")] [] (by decide)

/-- Occurrence test for the two-character separator `'; '`, mirroring the
way `.split('; ')` scans the string. -/
def hasSemiSep : Chars → Bool
  | [] => false
  | ';' :: ' ' :: _ => true
  | _ :: rest => hasSemiSep rest

/-- `GROUP_CONCAT(..., '; ')`: the group's values joined by `'; '`. -/
def joinSemi : List Chars → Chars
  | [] => []
  | [p] => p
  | p :: ps => p ++ ';' :: ' ' :: joinSemi ps

/-- `DISTINCT` values in first-occurrence order. -/
def distinctVals (l : List Chars) : List Chars := l.foldl insertDistinct []

/-- `core.find_duplicates`: `GROUP BY file_key` (keys in first-occurrence
order, each group's rows in table order), `GROUP_CONCAT(full_path, '; ')`,
`GROUP_CONCAT(file_size, '; ')` with sqlite's decimal integer rendering,
and `HAVING COUNT(DISTINCT mount_point) > 1`. -/
def find_duplicates (cat : Catalog) : List (Chars × Chars × Chars × Nat) :=
  (distinctVals (cat.map FileRecord.file_key)).filterMap (fun k =>
    if (distinctVals ((cat.filter (fun r => decide (r.file_key = k))).map
        FileRecord.mount_point)).length > 1 then
      some (k,
        joinSemi ((cat.filter (fun r => decide (r.file_key = k))).map FileRecord.full_path),
        joinSemi ((cat.filter (fun r => decide (r.file_key = k))).map
          (fun r => natToChars r.file_size)),
        (distinctVals ((cat.filter (fun r => decide (r.file_key = k))).map
          FileRecord.mount_point)).length)
    else none)

theorem splitSemi_cons_other (acc : Chars) (c c2 : Char) (rest : Chars)
    (h : ¬ (c = ';' ∧ c2 = ' ')) :
    splitSemi acc (c :: c2 :: rest) = splitSemi (acc ++ [c]) (c2 :: rest) := by
  rw [splitSemi]
  intro r hc hr
  injection hr with h1 h2
  exact h ⟨hc, h1⟩

theorem splitSemi_single (acc : Chars) (c : Char) :
    splitSemi acc [c] = [acc ++ [c]] := by
  rw [splitSemi]
  all_goals first
  | rfl
  | (intro r hx hr; exact absurd hr (by simp))

theorem hasSemiSep_cons_other (c c2 : Char) (rest : Chars) (h : ¬ (c = ';' ∧ c2 = ' ')) :
    hasSemiSep (c :: c2 :: rest) = hasSemiSep (c2 :: rest) := by
  rw [hasSemiSep]
  intro r hc hr
  injection hr with h1 h2
  exact h ⟨hc, h1⟩

theorem hasSemiSep_single (c : Char) : hasSemiSep [c] = false := by
  rw [hasSemiSep]
  all_goals first
  | rfl
  | (intro r hx hr; exact absurd hr (by simp))

theorem splitSemi_no_sep :
    ∀ p : Chars, hasSemiSep p = false → ∀ acc, splitSemi acc p = [acc ++ p] := by
  intro p
  induction p with
  | nil =>
    intro _ acc
    rw [show splitSemi acc [] = [acc] from rfl, List.append_nil]
  | cons c p2 ih =>
    intro hp acc
    cases p2 with
    | nil => rw [splitSemi_single]
    | cons c2 p3 =>
      have hnc : ¬ (c = ';' ∧ c2 = ' ') := by
        intro hc
        rw [hc.1, hc.2] at hp
        rw [show hasSemiSep (';' :: ' ' :: p3) = true from rfl] at hp
        exact absurd hp (by simp)
      rw [splitSemi_cons_other acc c c2 p3 hnc,
        ih (by rw [← hasSemiSep_cons_other c c2 p3 hnc]; exact hp) (acc ++ [c]),
        List.append_assoc]
      rfl

theorem splitSemi_through :
    ∀ p : Chars, hasSemiSep p = false →
      ∀ (acc t : Chars), splitSemi acc (p ++ ';' :: ' ' :: t) = (acc ++ p) :: splitSemi [] t := by
  intro p
  induction p with
  | nil =>
    intro _ acc t
    rw [List.nil_append, show splitSemi acc (';' :: ' ' :: t) = acc :: splitSemi [] t from rfl,
      List.append_nil]
  | cons c p2 ih =>
    intro hp acc t
    cases p2 with
    | nil =>
      rw [List.cons_append, List.nil_append,
        splitSemi_cons_other acc c ';' (' ' :: t) (by intro hc; exact absurd hc.2 (by decide)),
        show splitSemi (acc ++ [c]) (';' :: ' ' :: t) = (acc ++ [c]) :: splitSemi [] t from rfl]
    | cons c2 p3 =>
      have hnc : ¬ (c = ';' ∧ c2 = ' ') := by
        intro hc
        rw [hc.1, hc.2] at hp
        rw [show hasSemiSep (';' :: ' ' :: p3) = true from rfl] at hp
        exact absurd hp (by simp)
      rw [List.cons_append, List.cons_append,
        splitSemi_cons_other acc c c2 (p3 ++ ';' :: ' ' :: t) hnc]
      have hih := ih (by rw [← hasSemiSep_cons_other c c2 p3 hnc]; exact hp) (acc ++ [c]) t
      rw [show (c2 :: p3) ++ ';' :: ' ' :: t = c2 :: (p3 ++ ';' :: ' ' :: t) from rfl] at hih
      rw [hih, List.append_assoc]
      rfl

theorem splitSemi_joinSemi :
    ∀ parts : List Chars, parts ≠ [] → (∀ p ∈ parts, hasSemiSep p = false) →
      splitSemi [] (joinSemi parts) = parts := by
  intro parts
  induction parts with
  | nil => intro h _; exact absurd rfl h
  | cons p ps ih =>
    intro _ hall
    cases ps with
    | nil =>
      rw [show joinSemi [p] = p from rfl,
        splitSemi_no_sep p (hall p (List.mem_cons_self p [])) []]
      rfl
    | cons q ps2 =>
      rw [show joinSemi (p :: q :: ps2) = p ++ ';' :: ' ' :: joinSemi (q :: ps2) from rfl,
        splitSemi_through p (hall p (List.mem_cons_self p _)) [] (joinSemi (q :: ps2)),
        List.nil_append,
        ih (by simp) (fun x hx => hall x (List.mem_cons_of_mem p hx))]

theorem parse_natToCharsFuel :
    ∀ (fuel n : Nat), n < fuel → parseNatChars (natToCharsFuel fuel n) = n := by
  intro fuel
  induction fuel with
  | zero => intro n h; exact absurd h (by omega)
  | succ f ih =>
    intro n h
    rw [natToCharsFuel]
    by_cases h10 : n < 10
    · rw [if_pos h10]
      interval_cases n <;> decide
    · rw [if_neg h10]
      unfold parseNatChars
      rw [List.foldl_append]
      have hdiv : n / 10 < f := by omega
      rw [show List.foldl (fun n c => n * 10 + (c.toNat - 48)) 0 (natToCharsFuel f (n / 10)) =
        parseNatChars (natToCharsFuel f (n / 10)) from rfl, ih (n / 10) hdiv]
      show n / 10 * 10 + ((Char.ofNat (48 + n % 10)).toNat - 48) = n
      have hm : n % 10 < 10 := Nat.mod_lt _ (by omega)
      have hch : (Char.ofNat (48 + n % 10)).toNat - 48 = n % 10 := by
        set k := n % 10 with hk
        interval_cases k <;> decide
      omega

theorem parse_natToChars (n : Nat) : parseNatChars (natToChars n) = n :=
  parse_natToCharsFuel (n + 1) n (by omega)

theorem natToCharsFuel_no_semi :
    ∀ (fuel n : Nat), n < fuel → ∀ c ∈ natToCharsFuel fuel n, ¬ c = ';' := by
  intro fuel
  induction fuel with
  | zero => intro n h; exact absurd h (by omega)
  | succ f ih =>
    intro n h c hc
    rw [natToCharsFuel] at hc
    by_cases h10 : n < 10
    · rw [if_pos h10] at hc
      have hcc : c = Char.ofNat (48 + n) := by simpa using hc
      subst hcc
      interval_cases n <;> decide
    · rw [if_neg h10] at hc
      rcases List.mem_append.mp hc with h2 | h2
      · exact ih (n / 10) (by omega) c h2
      · have hcc : c = Char.ofNat (48 + n % 10) := by simpa using h2
        subst hcc
        have hm : n % 10 < 10 := Nat.mod_lt _ (by omega)
        set k := n % 10 with hk
        interval_cases k <;> decide

theorem hasSemiSep_false_of_no_semi :
    ∀ p : Chars, (∀ c ∈ p, ¬ c = ';') → hasSemiSep p = false := by
  intro p
  induction p with
  | nil => intro _; rfl
  | cons c p2 ih =>
    intro h
    cases p2 with
    | nil => exact hasSemiSep_single c
    | cons c2 p3 =>
      rw [hasSemiSep_cons_other c c2 p3
        (fun hc => h c (List.mem_cons_self c _) hc.1)]
      exact ih (fun x hx => h x (List.mem_cons_of_mem c hx))

theorem hasSemiSep_iff_sep_occurs (p : Chars) : hasSemiSep p = true ↔ semiSep <:+: p := by
  constructor
  · intro h
    induction p with
    | nil => exact absurd h (by decide)
    | cons c p2 ih =>
      cases p2 with
      | nil => rw [hasSemiSep_single] at h; exact absurd h (by simp)
      | cons c2 p3 =>
        by_cases hc : c = ';' ∧ c2 = ' '
        · exact ⟨[], p3, by rw [hc.1, hc.2]; rfl⟩
        · rw [hasSemiSep_cons_other c c2 p3 hc] at h
          obtain ⟨s, t, hst⟩ := ih h
          exact ⟨c :: s, t, by rw [← hst]; rfl⟩
  · intro hin
    obtain ⟨s, t, hst⟩ := hin
    subst hst
    induction s with
    | nil => rfl
    | cons c s2 ih =>
      cases hs2 : s2 ++ semiSep ++ t with
      | nil => exact absurd hs2 (by simp [semiSep])
      | cons c2 rest =>
        by_cases hc : c = ';' ∧ c2 = ' '
        · rw [List.cons_append, List.cons_append, hs2, hc.1, hc.2]
          rfl
        · rw [List.cons_append, List.cons_append, hs2, hasSemiSep_cons_other c c2 rest hc,
            ← hs2]
          exact ih

theorem foldl_insertDistinct_mem :
    ∀ (l acc : List Chars) (x : Chars),
      x ∈ l.foldl insertDistinct acc → x ∈ acc ∨ x ∈ l := by
  intro l
  induction l with
  | nil => intro acc x h; exact Or.inl h
  | cons a t ih =>
    intro acc x h
    rcases ih (insertDistinct acc a) x h with h2 | h2
    · unfold insertDistinct at h2
      by_cases ha : a ∈ acc
      · rw [if_pos ha] at h2
        exact Or.inl h2
      · rw [if_neg ha] at h2
        rcases List.mem_append.mp h2 with h3 | h3
        · exact Or.inl h3
        · exact Or.inr (by rw [List.mem_singleton.mp h3]; exact List.mem_cons_self a t)
    · exact Or.inr (List.mem_cons_of_mem a h2)

theorem distinctVals_subset (l : List Chars) (x : Chars) (h : x ∈ distinctVals l) : x ∈ l := by
  rcases foldl_insertDistinct_mem l [] x h with h2 | h2
  · exact absurd h2 (List.not_mem_nil x)
  · exact h2

/-- C10: `find_duplicates` encodes each group's paths and sizes joined by
`'; '` and `analyze_duplicates` decodes by splitting on `'; '`; whenever no
stored `full_path` contains the substring `'; '`, decoding a group
reconstructs exactly its rows' `(full_path, file_size)` pairs, while for
some catalog holding a `full_path` with `'; '` inside, the decoded pairs
differ from the stored rows. -/
theorem C10_semisep_roundtrip :
    (∀ cat : Catalog, (∀ r ∈ cat, ¬ semiSep <:+: r.full_path) →
      ∀ g ∈ find_duplicates cat,
        decodePairs g.2.1 g.2.2.1 =
          (cat.filter (fun r => decide (r.file_key = g.1))).map
            (fun r => (r.full_path, r.file_size))) ∧
    (∃ cat : Catalog, ∃ g, g ∈ find_duplicates cat ∧
      decodePairs g.2.1 g.2.2.1 ≠
        (cat.filter (fun r => decide (r.file_key = g.1))).map
          (fun r => (r.full_path, r.file_size))) := by
  constructor
  · intro cat hno g hg
    rw [find_duplicates] at hg
    obtain ⟨k, hk, hfk⟩ := List.mem_filterMap.mp hg
    split at hfk
    · injection hfk with hfk2
      subst hfk2
      show decodePairs
        (joinSemi ((cat.filter (fun r => decide (r.file_key = k))).map FileRecord.full_path))
        (joinSemi ((cat.filter (fun r => decide (r.file_key = k))).map
          (fun r => natToChars r.file_size))) =
        (cat.filter (fun r => decide (r.file_key = k))).map
          (fun r => (r.full_path, r.file_size))
      obtain ⟨r0, hr0, hr0k⟩ := List.mem_map.mp (distinctVals_subset _ _ hk)
      have hr0rows : r0 ∈ cat.filter (fun r => decide (r.file_key = k)) :=
        List.mem_filter.mpr ⟨hr0, by simpa using hr0k⟩
      have hrowsne : cat.filter (fun r => decide (r.file_key = k)) ≠ [] :=
        List.ne_nil_of_mem hr0rows
      have hpne : (cat.filter (fun r => decide (r.file_key = k))).map
          FileRecord.full_path ≠ [] := by
        intro hc
        rw [List.map_eq_nil_iff] at hc
        exact hrowsne hc
      have hsne : (cat.filter (fun r => decide (r.file_key = k))).map
          (fun r => natToChars r.file_size) ≠ [] := by
        intro hc
        rw [List.map_eq_nil_iff] at hc
        exact hrowsne hc
      have hP : ∀ p ∈ (cat.filter (fun r => decide (r.file_key = k))).map
          FileRecord.full_path, hasSemiSep p = false := by
        intro p hp
        obtain ⟨r, hr, hrp⟩ := List.mem_map.mp hp
        have hrcat : r ∈ cat := (List.mem_filter.mp hr).1
        cases hb : hasSemiSep p with
        | false => rfl
        | true =>
          exact absurd ((hasSemiSep_iff_sep_occurs p).mp hb) (hrp ▸ hno r hrcat)
      have hS : ∀ p ∈ (cat.filter (fun r => decide (r.file_key = k))).map
          (fun r => natToChars r.file_size), hasSemiSep p = false := by
        intro p hp
        obtain ⟨r, hr, hrp⟩ := List.mem_map.mp hp
        rw [← hrp]
        exact hasSemiSep_false_of_no_semi _
          (natToCharsFuel_no_semi (r.file_size + 1) r.file_size (by omega))
      unfold decodePairs
      rw [splitSemi_joinSemi _ hpne hP, splitSemi_joinSemi _ hsne hS, List.map_map]
      have hparse : (parseNatChars ∘ fun r : FileRecord => natToChars r.file_size) =
          (fun r : FileRecord => r.file_size) := by
        funext r
        exact parse_natToChars r.file_size
      rw [hparse, List.zip_map']
    · exact absurd hfk (by simp)
  · refine ⟨([⟨pstr "x", pstr "a; b", pstr "/m1", 1, 0⟩,
      ⟨pstr "x", pstr "c", pstr "/m2", 2, 0⟩] : Catalog),
      ((pstr "x", pstr "a; b; c", pstr "1; 2", 2) : Chars × Chars × Chars × Nat), ?_, ?_⟩
    · decide
    · decide

theorem C10_semisep_roundtrip_witness :
    decodePairs (pstr "/a/f; /b/f") (pstr "1; 2") =
      (([⟨pstr "f", pstr "/a/f", pstr "/a", 1, 0⟩,
        ⟨pstr "f", pstr "/b/f", pstr "/b", 2, 0⟩] : Catalog).filter
          (fun r => decide (r.file_key = pstr "f"))).map
        (fun r => (r.full_path, r.file_size)) :=
  C10_semisep_roundtrip.1
    [⟨pstr "f", pstr "/a/f", pstr "/a", 1, 0⟩,
     ⟨pstr "f", pstr "/b/f", pstr "/b", 2, 0⟩]
    (by decide)
    (pstr "f", pstr "/a/f; /b/f", pstr "1; 2", 2)
    (by decide)
